import Mathlib

/-!
# Verification of the vc-network-optimization core

Shallow embedding of the repository's core pipeline:

* `src/src/data_loader.py` — ingestion of raw rating records and construction
  of the undirected relationship graph with derived node attributes;
* `src/src/models/sentinel.py` — exact (MILP) and greedy maximum-coverage
  sentinel selection;
* `src/run_pipeline.py` — the naive degree-based baseline;
* `src/src/models/maintenance.py` — the exact 0/1-knapsack maintenance
  selection.

Integers stay integers (`Int`/`Nat`); Python float arithmetic on ratings is
modelled exactly over `ℚ` (all quantities the coverage solvers compute are
finite sums and averages of integers, which the claims treat exactly), and the
transcendental maintenance value function (`math.log`, `math.sqrt`) over `ℝ`.
The MILP backend (Gurobi) is an external collaborator contracted to return an
exact optimum with status `Optimal`; its solve call is modelled by exact
maximization over the finite feasible set that the source code hands to it.
-/

namespace VCNet

/-- A parsed raw rating record `source_id,target_id,rating,timestamp`
(`data_loader.py` lines 43-48). -/
structure RawRecord where
  src : Int
  tgt : Int
  rating : Int
  ts : Int
  deriving DecidableEq, Repr

/-- One input line, already split on commas and with integer fields decoded
(lines are comma-separated integers; decoding of the decimal numerals is not
modelled).  The loop body of `data_loader.py` (lines 40-52) keeps a line
exactly when it has at least 4 comma-separated fields, reading the first four
fields; lines with fewer than 4 fields are passed over silently. -/
def parseRow (row : List Int) : Option RawRecord :=
  if h : 4 ≤ row.length then
    some ⟨row.get ⟨0, by omega⟩, row.get ⟨1, by omega⟩,
          row.get ⟨2, by omega⟩, row.get ⟨3, by omega⟩⟩
  else none

/-- The list `raw_edges` accumulated by the parse loop
(`data_loader.py` lines 36-52). -/
def ingestRows (rows : List (List Int)) : List RawRecord :=
  rows.filterMap parseRow

/-- A directed edge of the networkx `DiGraph`: `(src, tgt, rating, timestamp)`,
kept in adjacency insertion order. -/
abbrev DirEdge := Int × Int × Int × Int

/-- Does directed edge `e` connect source `u` to target `v`? -/
def dirKey (u v : Int) (e : DirEdge) : Bool :=
  decide (e.1 = u ∧ e.2.1 = v)

/-- Does raw record `r` go from source `u` to target `v`? -/
def recKey (u v : Int) (r : RawRecord) : Bool :=
  decide (r.src = u ∧ r.tgt = v)

/-- The directed edge a raw record contributes. -/
def toDirEdge (r : RawRecord) : DirEdge :=
  (r.src, r.tgt, r.rating, r.ts)

/-- `DG.add_edge(u, v, weight=rating, timestamp=t)` (`data_loader.py` line 52):
networkx keeps one data record per directed pair; re-adding an existing edge
overwrites its data in place (position unchanged), otherwise the edge is
appended. -/
def addDirEdge (es : List DirEdge) (r : RawRecord) : List DirEdge :=
  if es.any (dirKey r.src r.tgt) then
    es.map (fun e => if dirKey r.src r.tgt e then toDirEdge r else e)
  else es ++ [toDirEdge r]

/-- The directed graph after ingesting all records, as its edge list. -/
def digraph (recs : List RawRecord) : List DirEdge :=
  recs.foldl addDirEdge []

/-- The `(weight, timestamp)` data stored on directed edge `(u, v)`,
if present (`DG[u][v]['weight']`, `DG[u][v]['timestamp']`). -/
def dirData (recs : List RawRecord) (u v : Int) : Option (Int × Int) :=
  ((digraph recs).find? (dirKey u v)).map (fun e => (e.2.2.1, e.2.2.2))

/-- `DG.has_edge(u, v)`: some raw record with source `u` and target `v`
was ingested. -/
def hasDirEdge (recs : List RawRecord) (u v : Int) : Bool :=
  recs.any (recKey u v)

/-- The last raw record in the stream with source `u` and target `v` — the
record whose data the `DiGraph` ends up storing for `(u, v)`. -/
def lastDirRecord (recs : List RawRecord) (u v : Int) : Option RawRecord :=
  (recs.filter (recKey u v)).getLast?

/-- Append a node if it is not present yet (networkx node dict insertion). -/
def insertNode (l : List Int) (n : Int) : List Int :=
  if n ∈ l then l else l ++ [n]

/-- The nodes of the graph in networkx insertion order: `DG.add_edge(u, v)`
inserts `u` then `v`, and `G.add_nodes_from(DG.nodes())` preserves that order
(`data_loader.py` lines 52 and 66). -/
def nodesInOrder (recs : List RawRecord) : List Int :=
  recs.foldl (fun l r => insertNode (insertNode l r.src) r.tgt) []

/-- The collapsed undirected edge weight for the pair `{u, v}`
(`data_loader.py` lines 77-92): the average of the two directional ratings if
both directions exist, else the single existing rating; `None` if the pair is
not connected. -/
def edgeWeight (recs : List RawRecord) (u v : Int) : Option ℚ :=
  match dirData recs u v, dirData recs v u with
  | some a, some b => some (((a.1 : ℚ) + (b.1 : ℚ)) / 2)
  | some a, none => some (a.1 : ℚ)
  | none, some b => some (b.1 : ℚ)
  | none, none => none

/-- The collapsed undirected edge timestamp for the pair `{u, v}`
(`data_loader.py` lines 80-90): each direction contributes its stored
timestamp, a missing direction contributes `0`, and the maximum is kept. -/
def edgeTimestamp (recs : List RawRecord) (u v : Int) : Option Int :=
  if hasDirEdge recs u v || hasDirEdge recs v u then
    some (max ((dirData recs u v).elim 0 Prod.snd)
              ((dirData recs v u).elim 0 Prod.snd))
  else none

/-- The ratings of all raw records whose target is `n`, duplicates included
(`node_ratings` in `data_loader.py` lines 107-112). -/
def incomingRatings (recs : List RawRecord) (n : Int) : List Int :=
  (recs.filter (fun r => decide (r.tgt = n))).map (fun r => r.rating)

/-- `talent_score`: the arithmetic mean of all ratings received, `0` if none
(`data_loader.py` lines 119-138). -/
def talentScore (recs : List RawRecord) (n : Int) : ℚ :=
  let l := incomingRatings recs n
  if l.isEmpty then 0 else (l.sum : ℚ) / (l.length : ℚ)

/-- The global "now": the maximum timestamp in the dataset
(`data_loader.py` line 103). -/
def maxTime (recs : List RawRecord) : Int :=
  ((recs.map (fun r => r.ts)).max?).getD 0

/-- All timestamps of raw records touching `n` as source or target
(`data_loader.py` lines 152-155). -/
def nodeTimestamps (recs : List RawRecord) (n : Int) : List Int :=
  (recs.filter (fun r => decide (r.src = n ∨ r.tgt = n))).map (fun r => r.ts)

/-- `last_contacted` (`data_loader.py` lines 152-166): days since the most
recent interaction involving the node, relative to the global maximum
timestamp, floored at 1; `730` for a node with no recorded interaction.
The quotient is exact integer division: the Python `int(diff / 86400)`
truncates a nonnegative float quotient, which agrees with floor division
here since `diff = max_time - last_ts ≥ 0`. -/
def lastContactedDays (recs : List RawRecord) (n : Int) : Int :=
  match (nodeTimestamps recs n).max? with
  | some lastTs => max 1 ((maxTime recs - lastTs) / 86400)
  | none => 730

/-- The frozen undirected graph the four selectors consume: node list in
insertion order, adjacency, and the derived per-node attributes.
`maintenance_cost` (`random.randint(15, 120)` under the fixed seed,
`data_loader.py` line 170) is kept abstract as the function `cost`. -/
structure NGraph where
  nodes : List Int
  adj : Int → Int → Bool
  talent : Int → ℚ
  lastContacted : Int → Int
  cost : Int → Int

/-- `load_graph` (`data_loader.py`): build the undirected graph and its node
attributes from the ingested records. -/
def buildGraph (recs : List RawRecord) (cost : Int → Int) : NGraph where
  nodes := nodesInOrder recs
  adj := fun u v => hasDirEdge recs u v || hasDirEdge recs v u
  talent := talentScore recs
  lastContacted := lastContactedDays recs
  cost := cost

/-- `G.neighbors(n)`: the nodes sharing an undirected edge with `n`
(includes `n` itself when a self-loop is present, as in networkx). -/
def NGraph.neighbors (G : NGraph) (n : Int) : List Int :=
  G.nodes.filter (fun m => G.adj n m)

/-- `G.degree(n)`: number of incident undirected edges, a self-loop counting
twice (networkx convention). -/
def NGraph.degree (G : NGraph) (n : Int) : Nat :=
  (G.neighbors n).length + (if G.adj n n then 1 else 0)

/-- `candidates = [n for n in G.nodes() if G.degree(n) > 0]`
(`sentinel.py` lines 26-27 and 100, `run_pipeline.py` line 49). -/
def NGraph.candidates (G : NGraph) : List Int :=
  G.nodes.filter (fun n => decide (0 < G.degree n))

/-! ## Sentinel problem: the three selection strategies

`solve_sentinel_ip` hands the max-coverage MILP to Gurobi with a 10-minute
time limit (`sentinel.py` lines 30-64); the solver collaborator is contracted
to return the exact optimum with status `Optimal`.  Its solve call is modelled
by exact maximization over the finite feasible set of the integer program the
source builds: selections `S` of at most `k` candidates, and 0/1 coverage
assignments `y` with `y[j] ≤ Σ x[i]` over the knowers of `j`. -/

/-- `Σ talent_score` over a list of nodes. -/
def sumTalent (G : NGraph) (l : List Int) : ℚ :=
  (l.map G.talent).sum

/-- `knowers`: the neighbors of talent `j` that are candidates
(`sentinel.py` line 55). -/
def knowers (G : NGraph) (j : Int) : List Int :=
  (G.neighbors j).filter (fun i => decide (i ∈ G.candidates))

/-- May `y[j] = 1` hold under the coverage constraint for selection `S`?
(`sentinel.py` lines 53-61: `y[j] ≤ Σ_{i ∈ knowers(j)} x[i]`, and `y[j] = 0`
when `j` has no knowers.) -/
def coverableBy (G : NGraph) (S : List Int) (j : Int) : Bool :=
  (knowers G j).any (fun i => decide (i ∈ S))

/-- The feasible 0/1 assignments of the `y` (covered) variables for a fixed
selection `S`: subsets of the talent list whose members are all coverable. -/
def ipCoverSets (G : NGraph) (S : List Int) : List (List Int) :=
  G.candidates.sublists.filter (fun Y => Y.all (coverableBy G S))

/-- The objective value the MILP attains for a fixed selection `S`: the best
`Σ talent_score(j) · y[j]` over feasible `y`. -/
def ipObjBest (G : NGraph) (S : List Int) : ℚ :=
  match (ipCoverSets G S).argmax (sumTalent G) with
  | some Y => sumTalent G Y
  | none => 0

/-- The feasible selections: subsets of the candidate list of size at most `k`
(`sentinel.py` line 49: `Σ x[i] ≤ k`). -/
def ipSelections (G : NGraph) (k : Nat) : List (List Int) :=
  G.candidates.sublists.filter (fun S => decide (S.length ≤ k))

/-- `solve_sentinel_ip` (`sentinel.py` lines 7-74): the exact max-coverage
solve, returning the selected sentinels and the achieved coverage value. -/
def solve_sentinel_ip (G : NGraph) (k : Nat) : List Int × ℚ :=
  match (ipSelections G k).argmax (ipObjBest G) with
  | some S => (S, ipObjBest G S)
  | none => ([], 0)

/-- Gurobi's solve status as surfaced by the source (`GRB.OPTIMAL`,
`GRB.TIME_LIMIT`, anything else). -/
inductive SolverStatus where
  | optimal
  | timeLimit
  | infeasible
  deriving DecidableEq, Repr

/-- `sentinel.py` lines 66-74: given the solver status and the incumbent
assignment (selected list, objective value) plus the measured runtime, the
value `solve_sentinel_ip` returns to its caller.  For `Optimal` and
`TimeLimitReached` alike it returns `(selected, covered_weight, runtime)`;
any other status yields `([], 0.0, runtime)`. -/
def sentinelReturn (status : SolverStatus) (selected : List Int)
    (objVal runtime : ℚ) : List Int × ℚ × ℚ :=
  match status with
  | .optimal => (selected, objVal, runtime)
  | .timeLimit => (selected, objVal, runtime)
  | .infeasible => ([], 0, runtime)

/-- The state threaded through the greedy loop (`sentinel.py` lines 92-94):
selected sentinels, covered talents, accumulated score. -/
structure GState where
  selected : List Int
  covered : List Int
  score : ℚ

/-- The marginal gain of candidate `c` given the already covered talents
(`sentinel.py` lines 113-116): `Σ talent_score` over `neighbors(c)` minus the
covered set. -/
def marginalGain (G : NGraph) (covered : List Int) (c : Int) : ℚ :=
  (((G.neighbors c).filter (fun t => decide (t ∉ covered))).map G.talent).sum

/-- The body of the candidate scan (`sentinel.py` lines 109-120): skip
already-selected candidates, remember the first strictly better gain. -/
def pickStep (G : NGraph) (selected covered : List Int)
    (acc : Option Int × ℚ) (c : Int) : Option Int × ℚ :=
  if c ∈ selected then acc
  else
    let g := marginalGain G covered c
    if acc.2 < g then (some c, g) else acc

/-- One pass over the candidates (`sentinel.py` lines 106-120): find the
unselected candidate of maximum marginal gain, first one wins ties, starting
from `(None, -1.0)`. -/
def pickBest (G : NGraph) (selected covered : List Int) : Option Int × ℚ :=
  G.candidates.foldl (pickStep G selected covered) (none, -1)

/-- The greedy loop (`sentinel.py` lines 105-128): up to `k` rounds; stop
early unless a candidate with strictly positive marginal gain was found. -/
def greedyLoop (G : NGraph) : Nat → GState → GState
  | 0, st => st
  | Nat.succ k, st =>
    match pickBest G st.selected st.covered with
    | (some c, g) =>
      if 0 < g then
        greedyLoop G k
          ⟨st.selected ++ [c],
           st.covered ++ ((G.neighbors c).filter (fun t => decide (t ∉ st.covered))),
           st.score + g⟩
      else st
    | (none, _) => st

/-- `solve_sentinel_greedy` (`sentinel.py` lines 76-131): selected sentinels
and accumulated coverage score. -/
def solve_sentinel_greedy (G : NGraph) (k : Nat) : List Int × ℚ :=
  let st := greedyLoop G k ⟨[], [], 0⟩
  (st.selected, st.score)

/-- Is talent `t` covered by the selection `sel`, i.e. adjacent to some
selected sentinel? -/
def coveredB (G : NGraph) (sel : List Int) (t : Int) : Bool :=
  sel.any (fun s => G.adj s t)

/-- The covered talents of a selection: every node adjacent to a selected
sentinel (the union of the sentinels' neighbor sets). -/
def coveredNodes (G : NGraph) (sel : List Int) : List Int :=
  G.nodes.filter (coveredB G sel)

/-- The marginal gain of candidate `c` over the coverage of selection `sel`
(the set-semantics counterpart of `marginalGain`). -/
def gainOf (G : NGraph) (sel : List Int) (c : Int) : ℚ :=
  (((G.neighbors c).filter (fun t => !coveredB G sel t)).map G.talent).sum

/-- `Σ talent_score` over the union of the selected nodes' neighbor sets,
each covered node counted once (`run_pipeline.py` lines 56-61). -/
def coverScore (G : NGraph) (sel : List Int) : ℚ :=
  ((coveredNodes G sel).map G.talent).sum

/-- Stable descending insertion by second component: `x` goes in front of the
first entry whose key is `≤` its own, so earlier entries win ties. -/
def insertDescBy (x : Int × Nat) : List (Int × Nat) → List (Int × Nat)
  | [] => [x]
  | y :: ys => if y.2 ≤ x.2 then x :: y :: ys else y :: insertDescBy x ys

/-- Stable sort, descending by second component — the behavior of Python's
stable `list.sort(key=lambda x: x[1], reverse=True)` (`run_pipeline.py`
line 52; `reverse=True` does not reorder ties). -/
def sortDescBy : List (Int × Nat) → List (Int × Nat)
  | [] => []
  | x :: xs => insertDescBy x (sortDescBy xs)

/-- `[(n, G.degree(n)) for n in G.nodes() if G.degree(n) > 0]`
(`run_pipeline.py` line 49). -/
def degreePairs (G : NGraph) : List (Int × Nat) :=
  (G.nodes.filter (fun n => decide (0 < G.degree n))).map (fun n => (n, G.degree n))

/-- `solve_sentinel_naive` (`run_pipeline.py` lines 37-64): take the `k`
highest-degree nodes (stable descending sort) and sum `talent_score` over the
union of their neighbor sets. -/
def solve_sentinel_naive (G : NGraph) (k : Nat) : List Int × ℚ :=
  let selected := ((sortDescBy (degreePairs G)).take k).map (fun p => p.1)
  (selected, coverScore G selected)

/-! ## Maintenance problem (`maintenance.py`) -/

/-- A maintenance candidate as materialized by `solve_maintenance_ip`
(`maintenance.py` lines 69-76); its `value` field is determined by the stored
fields and is modelled as the function `mvalue` below. -/
structure MCand where
  id : Int
  weight : Int
  days_dormant : Int
  degree : Nat
  talent : ℚ
  deriving DecidableEq, Repr

/-- `calculate_urgency` (`maintenance.py` lines 7-13): `log(t + 1)`. -/
noncomputable def calculate_urgency (t : ℝ) : ℝ :=
  Real.log (t + 1)

/-- The candidate's `value` (`maintenance.py` lines 55-67):
`urgency(t_i) * (talent_score * sqrt(degree))`. -/
noncomputable def mvalue (c : MCand) : ℝ :=
  calculate_urgency (c.days_dormant : ℝ) * ((c.talent : ℝ) * Real.sqrt (c.degree : ℝ))

/-- The candidate filter (`maintenance.py` lines 39-76): dormant
(`t_i > min_staleness`), connected (`degree > 0`), positively rated
(`talent_score > 0`). -/
def maintenanceCandidates (G : NGraph) (min_staleness : Int) : List MCand :=
  G.nodes.filterMap (fun n =>
    if min_staleness < G.lastContacted n then
      if 0 < G.degree n ∧ 0 < G.talent n then
        some ⟨n, G.cost n, G.lastContacted n, G.degree n, G.talent n⟩
      else none
    else none)

/-- Total maintenance weight (`Σ weight(i)·x[i]`). -/
def totalWeight (sel : List MCand) : Int :=
  (sel.map (fun c => c.weight)).sum

/-- Total maintenance value (`Σ value(i)·x[i]`). -/
noncomputable def totalMValue (sel : List MCand) : ℝ :=
  (sel.map mvalue).sum

/-- The feasible selections of the knapsack (`maintenance.py` line 90):
subsets of the candidate list within the time budget. -/
def feasibleMSels (G : NGraph) (min_staleness T : Int) : List (List MCand) :=
  (maintenanceCandidates G min_staleness).sublists.filter
    (fun s => decide (totalWeight s ≤ T))

/-- `solve_maintenance_ip` (`maintenance.py` lines 15-105): the exact 0/1
knapsack solve; on `Optimal` the selected candidates and their total value,
otherwise (`T < 0`, the only infeasible case) the untouched
`([], 0.0)` accumulators of lines 94-95. -/
noncomputable def solve_maintenance_ip (G : NGraph) (T min_staleness : Int) :
    List MCand × ℝ :=
  match (feasibleMSels G min_staleness T).argmax totalMValue with
  | some s => (s, totalMValue s)
  | none => ([], 0)

/-- Strict ranking the spec's words describe for the naive baseline: higher
degree first, ties broken by **ascending id**.  (Modelled from the spec's
words, only for comparison against the source's `solve_sentinel_naive`.) -/
def specNaiveBefore (x y : Int × Nat) : Prop :=
  y.2 < x.2 ∨ (x.2 = y.2 ∧ x.1 < y.1)

instance : DecidableRel specNaiveBefore := fun x y => by
  unfold specNaiveBefore; infer_instance

/-- Insertion step for the spec-described ranking. -/
def insertSpecBy (x : Int × Nat) : List (Int × Nat) → List (Int × Nat)
  | [] => [x]
  | y :: ys => if specNaiveBefore x y then x :: y :: ys else y :: insertSpecBy x ys

/-- Sort by the spec-described ranking (degree descending, ties by
ascending id). -/
def sortSpecBy : List (Int × Nat) → List (Int × Nat)
  | [] => []
  | x :: xs => insertSpecBy x (sortSpecBy xs)

/-- The selection claimed by the spec for the naive baseline: top-`k` by
degree with ties broken by ascending id.  (Modelled from the spec's words.) -/
def specNaiveSelect (G : NGraph) (k : Nat) : List Int :=
  ((sortSpecBy (degreePairs G)).take k).map (fun p => p.1)

/-- The invariant threaded through the greedy loop: the selection is a
duplicate-free sub-collection of the candidates, the covered list is exactly
the coverage of the selection, and the score is its coverage value. -/
def GInv (G : NGraph) (st : GState) : Prop :=
  (∀ s ∈ st.selected, s ∈ G.candidates) ∧ st.selected.Nodup ∧
    (∀ t, t ∈ st.covered ↔ coveredB G st.selected t = true) ∧
    st.score = coverScore G st.selected

/-- A fixed instance used by several concrete counterexamples and witnesses:
three raw records producing ratings `talent(2) = 10`, `talent(3) = -10`,
`talent(5) = 1` on a five-node graph. -/
def exRecs : List RawRecord :=
  [⟨1, 2, 10, 100⟩, ⟨1, 3, -10, 100⟩, ⟨4, 5, 1, 100⟩]

/-- The graph built from `exRecs` with all maintenance costs 50. -/
def exG : NGraph := buildGraph exRecs (fun _ => 50)

/-- A two-node instance whose single rating is negative. -/
def negG : NGraph := buildGraph [⟨2, 1, -5, 100⟩] (fun _ => 50)

/-- A two-node instance with nodes inserted in descending id order `[5, 3]`,
both of degree 1. -/
def tieG : NGraph := buildGraph [⟨5, 3, 2, 100⟩] (fun _ => 50)

/-- A two-node instance with a single positive rating. -/
def posG : NGraph := buildGraph [⟨1, 2, 3, 100⟩] (fun _ => 50)

/-! ### Last-write-wins for duplicate directed records

The networkx `DiGraph` keeps, for each ordered pair, the data of the **last**
raw record with that source and target.  The lemmas below recover that
characterization from the `add_edge` fold. -/

lemma dirKey_toDirEdge_self (r : RawRecord) : dirKey r.src r.tgt (toDirEdge r) = true := by
  simp [dirKey, toDirEdge]

lemma find?_map_replace (r : RawRecord) : ∀ es : List DirEdge,
    es.any (dirKey r.src r.tgt) = true →
    (es.map (fun e => if dirKey r.src r.tgt e then toDirEdge r else e)).find?
        (dirKey r.src r.tgt) = some (toDirEdge r)
  | [], h => by simp at h
  | e :: es, h => by
    rcases hk : dirKey r.src r.tgt e with _ | _
    · have h2 : es.any (dirKey r.src r.tgt) = true := by
        simpa [List.any_cons, hk] using h
      simpa [List.find?_cons, hk] using find?_map_replace r es h2
    · simp [List.find?_cons, hk, dirKey_toDirEdge_self]

lemma find?_map_of_fix (p : DirEdge → Bool) (g : DirEdge → DirEdge)
    (hg : ∀ e, p (g e) = p e) (hfix : ∀ e, p e = true → g e = e) :
    ∀ es : List DirEdge, (es.map g).find? p = es.find? p
  | [] => by simp
  | e :: es => by
    rcases hp : p e with _ | _
    · simp [List.find?_cons, hp, hg e, find?_map_of_fix p g hg hfix es]
    · simp [List.find?_cons, hp, hg e, hfix e hp]

lemma find?_addDirEdge_ne (r : RawRecord) (u v : Int)
    (h : ¬(r.src = u ∧ r.tgt = v)) (es : List DirEdge) :
    (addDirEdge es r).find? (dirKey u v) = es.find? (dirKey u v) := by
  have hnew : dirKey u v (toDirEdge r) = false := by
    simp only [dirKey, toDirEdge, decide_eq_false_iff_not]
    exact h
  unfold addDirEdge
  split
  · refine find?_map_of_fix _ _ (fun e => ?_) (fun e he => ?_) es
    · rcases hk : dirKey r.src r.tgt e with _ | _
      · simp [hk]
      · have hk2 := of_decide_eq_true hk
        have he : dirKey u v e = false := by
          simp only [dirKey, decide_eq_false_iff_not]
          rintro ⟨h1, h2⟩
          exact h ⟨by rw [← hk2.1, h1], by rw [← hk2.2, h2]⟩
        simp [hk, hnew, he]
    · rcases hk : dirKey r.src r.tgt e with _ | _
      · simp [hk]
      · exfalso
        have hk2 := of_decide_eq_true hk
        have he2 := of_decide_eq_true he
        exact h ⟨by rw [← hk2.1, he2.1], by rw [← hk2.2, he2.2]⟩
  · rw [List.find?_append]
    simp [hnew, Option.or_none]

lemma getLast?_cons_eq_or (a : α) (l : List α) :
    (a :: l).getLast? = l.getLast?.or (some a) := by
  rw [List.getLast?_cons]
  cases l.getLast? <;> simp [Option.or]

lemma option_map_or (f : α → β) (x y : Option α) :
    (x.or y).map f = (x.map f).or (y.map f) := by
  cases x <;> simp [Option.or]

lemma foldl_addDirEdge_find? (u v : Int) : ∀ (recs : List RawRecord) (es : List DirEdge),
    ((recs.foldl addDirEdge es).find? (dirKey u v))
      = (((recs.filter (recKey u v)).getLast?).map toDirEdge).or (es.find? (dirKey u v))
  | [], es => by simp
  | r :: recs, es => by
    rw [List.foldl_cons, foldl_addDirEdge_find? u v recs]
    by_cases hq : r.src = u ∧ r.tgt = v
    · have h1 : (addDirEdge es r).find? (dirKey u v) = some (toDirEdge r) := by
        obtain ⟨hq1, hq2⟩ := hq
        subst hq1; subst hq2
        unfold addDirEdge
        split
        · exact find?_map_replace r es (by assumption)
        · rename_i hany
          rw [List.find?_append, List.find?_eq_none.2, Option.none_or]
          · simp [dirKey_toDirEdge_self]
          · intro x hx
            intro hpx
            exact absurd (List.any_eq_true.2 ⟨x, hx, hpx⟩) hany
      have h2 : (r :: recs).filter (recKey u v) = r :: recs.filter (recKey u v) := by
        simp [recKey, hq]
      rw [h1, h2, getLast?_cons_eq_or, option_map_or, Option.or_assoc]
      rfl
    · have h1 : (addDirEdge es r).find? (dirKey u v) = es.find? (dirKey u v) :=
        find?_addDirEdge_ne r u v hq es
      have h2 : (r :: recs).filter (recKey u v) = recs.filter (recKey u v) := by
        simp [recKey, hq]
      rw [h1, h2]

/-- The data stored on directed edge `(u, v)` is exactly the rating and
timestamp of the **last** raw record `(u, v)` in the stream. -/
theorem dirData_eq_lastRecord (recs : List RawRecord) (u v : Int) :
    dirData recs u v
      = ((recs.filter (recKey u v)).getLast?).map (fun r => (r.rating, r.ts)) := by
  unfold dirData digraph
  rw [foldl_addDirEdge_find?]
  simp only [List.find?_nil, Option.or_none, Option.map_map]
  rfl

/-! ### Structural facts about the built graph -/

lemma insertNode_nodup {l : List Int} (h : l.Nodup) (n : Int) : (insertNode l n).Nodup := by
  unfold insertNode
  split
  · exact h
  · simpa using List.Nodup.append h (List.nodup_singleton n) (by simpa using (by assumption))

lemma mem_insertNode_self (l : List Int) (n : Int) : n ∈ insertNode l n := by
  unfold insertNode
  split
  · assumption
  · simp

lemma mem_insertNode_of_mem {l : List Int} {m : Int} (h : m ∈ l) (n : Int) :
    m ∈ insertNode l n := by
  unfold insertNode
  split
  · exact h
  · simp [h]

lemma nodesInOrder_aux_nodup : ∀ (recs : List RawRecord) (l : List Int), l.Nodup →
    (recs.foldl (fun l r => insertNode (insertNode l r.src) r.tgt) l).Nodup
  | [], l, h => h
  | r :: recs, l, h =>
    nodesInOrder_aux_nodup recs _ (insertNode_nodup (insertNode_nodup h r.src) r.tgt)

/-- The node list of the built graph has no duplicates. -/
theorem nodesInOrder_nodup (recs : List RawRecord) : (nodesInOrder recs).Nodup :=
  nodesInOrder_aux_nodup recs [] List.nodup_nil

lemma mem_foldl_insert_of_mem : ∀ (recs : List RawRecord) {l : List Int} {m : Int}, m ∈ l →
    m ∈ recs.foldl (fun l r => insertNode (insertNode l r.src) r.tgt) l
  | [], _, _, h => h
  | r :: recs, l, m, h =>
    mem_foldl_insert_of_mem recs (mem_insertNode_of_mem (mem_insertNode_of_mem h r.src) r.tgt)

lemma src_tgt_mem_nodesInOrder : ∀ (recs : List RawRecord) (l : List Int) {r : RawRecord},
    r ∈ recs →
    r.src ∈ recs.foldl (fun l r => insertNode (insertNode l r.src) r.tgt) l ∧
    r.tgt ∈ recs.foldl (fun l r => insertNode (insertNode l r.src) r.tgt) l
  | [], l, r, h => absurd h (List.not_mem_nil r)
  | q :: recs, l, r, h => by
    rcases List.mem_cons.1 h with h | h
    · subst h
      constructor
      · exact mem_foldl_insert_of_mem recs
          (mem_insertNode_of_mem (mem_insertNode_self l r.src) r.tgt)
      · exact mem_foldl_insert_of_mem recs (mem_insertNode_self _ r.tgt)
    · exact src_tgt_mem_nodesInOrder recs _ h

/-- The built graph's adjacency is symmetric. -/
theorem buildGraph_adj_symm (recs : List RawRecord) (cost : Int → Int) (u v : Int) :
    (buildGraph recs cost).adj u v = (buildGraph recs cost).adj v u := by
  simp only [buildGraph, Bool.or_comm]

/-- The built graph's node list has no duplicates. -/
theorem buildGraph_nodes_nodup (recs : List RawRecord) (cost : Int → Int) :
    (buildGraph recs cost).nodes.Nodup :=
  nodesInOrder_nodup recs

/-- Adjacent vertices of the built graph are nodes of the graph. -/
theorem buildGraph_adj_mem (recs : List RawRecord) (cost : Int → Int) {u v : Int}
    (h : (buildGraph recs cost).adj u v = true) :
    u ∈ (buildGraph recs cost).nodes ∧ v ∈ (buildGraph recs cost).nodes := by
  simp only [buildGraph, Bool.or_eq_true, hasDirEdge, List.any_eq_true, recKey,
    decide_eq_true_eq] at h
  rcases h with ⟨r, hr, h1, h2⟩ | ⟨r, hr, h1, h2⟩
  · have := src_tgt_mem_nodesInOrder recs [] hr
    subst h1; subst h2
    exact ⟨this.1, this.2⟩
  · have := src_tgt_mem_nodesInOrder recs [] hr
    subst h1; subst h2
    exact ⟨this.2, this.1⟩

/-! ### Claims C9, C2, C6, C5 -/

lemma dirData_eq_lastDirRecord (recs : List RawRecord) (u v : Int) :
    dirData recs u v = (lastDirRecord recs u v).map (fun r => (r.rating, r.ts)) :=
  dirData_eq_lastRecord recs u v

lemma hasDirEdge_iff (recs : List RawRecord) (u v : Int) :
    hasDirEdge recs u v = true ↔ ∃ r, lastDirRecord recs u v = some r := by
  rw [hasDirEdge, lastDirRecord, List.any_eq_true, ← Option.isSome_iff_exists,
    List.getLast?_isSome, Ne, List.filter_eq_nil_iff]
  push_neg
  simp only [List.mem_filter, Bool.not_eq_true, exists_prop]

lemma lastDirRecord_mem {recs : List RawRecord} {u v : Int} {r : RawRecord}
    (h : lastDirRecord recs u v = some r) : r ∈ recs := by
  rw [lastDirRecord, List.getLast?_eq_some_iff] at h
  obtain ⟨ys, hys⟩ := h
  have : r ∈ recs.filter (recKey u v) := by
    rw [hys]; simp
  exact (List.mem_filter.1 this).1

lemma hasDirEdge_false_of_lastDirRecord_none {recs : List RawRecord} {u v : Int}
    (h : lastDirRecord recs u v = none) : hasDirEdge recs u v = false := by
  rcases hb : hasDirEdge recs u v with _ | _
  · rfl
  · obtain ⟨r, hr⟩ := (hasDirEdge_iff recs u v).1 hb
    rw [hr] at h
    exact absurd h (by simp)

/-- **C2.** Edge collapse: for every pair of nodes `u, v` (over any record
stream with the spec's nonnegative timestamps), if both directed records
`(u,v)` and `(v,u)` exist, the collapsed undirected edge carries the average
of the two stored directional ratings and the maximum of the two stored
timestamps; if only one direction exists, it carries that single rating and
timestamp. -/
theorem claim_C2_edge_collapse :
    ∀ (recs : List RawRecord) (u v : Int), (∀ r ∈ recs, 0 ≤ r.ts) →
      (∀ r1 r2, lastDirRecord recs u v = some r1 → lastDirRecord recs v u = some r2 →
          edgeWeight recs u v = some (((r1.rating : ℚ) + (r2.rating : ℚ)) / 2) ∧
          edgeTimestamp recs u v = some (max r1.ts r2.ts))
      ∧ (∀ r1, lastDirRecord recs u v = some r1 → lastDirRecord recs v u = none →
          edgeWeight recs u v = some (r1.rating : ℚ) ∧
          edgeTimestamp recs u v = some r1.ts)
      ∧ (∀ r2, lastDirRecord recs u v = none → lastDirRecord recs v u = some r2 →
          edgeWeight recs u v = some (r2.rating : ℚ) ∧
          edgeTimestamp recs u v = some r2.ts) := by
  intro recs u v hts
  have huv := dirData_eq_lastDirRecord recs u v
  have hvu := dirData_eq_lastDirRecord recs v u
  refine ⟨fun r1 r2 e1 e2 => ?_, fun r1 e1 e2 => ?_, fun r2 e1 e2 => ?_⟩
  · have h1 : hasDirEdge recs u v = true := (hasDirEdge_iff recs u v).2 ⟨r1, e1⟩
    constructor
    · rw [edgeWeight, huv, hvu, e1, e2]
      simp
    · rw [edgeTimestamp, huv, hvu, e1, e2]
      simp [h1]
  · have h1 : hasDirEdge recs u v = true := (hasDirEdge_iff recs u v).2 ⟨r1, e1⟩
    have hnn : 0 ≤ r1.ts := hts r1 (lastDirRecord_mem e1)
    constructor
    · rw [edgeWeight, huv, hvu, e1, e2]
      simp
    · rw [edgeTimestamp, huv, hvu, e1, e2]
      simp [h1, max_eq_left hnn]
  · have h2 : hasDirEdge recs v u = true := (hasDirEdge_iff recs v u).2 ⟨r2, e2⟩
    have hnn : 0 ≤ r2.ts := hts r2 (lastDirRecord_mem e2)
    constructor
    · rw [edgeWeight, huv, hvu, e1, e2]
      simp
    · rw [edgeTimestamp, huv, hvu, e1, e2]
      simp [h2, max_eq_right hnn]

/-- Witness for C2 at the spec's own concrete instances: records
`(1→2, 5, t=100)` and `(2→1, 7, t=200)` collapse to weight `6` and
timestamp `200`; the lone record `(3→4, 10, t=50)` yields weight `10` and
timestamp `50`. -/
theorem claim_C2_edge_collapse_witness :
    (∀ r ∈ [(⟨1, 2, 5, 100⟩ : RawRecord), ⟨2, 1, 7, 200⟩], 0 ≤ r.ts)
    ∧ edgeWeight [(⟨1, 2, 5, 100⟩ : RawRecord), ⟨2, 1, 7, 200⟩] 1 2 = some 6
    ∧ edgeTimestamp [(⟨1, 2, 5, 100⟩ : RawRecord), ⟨2, 1, 7, 200⟩] 1 2 = some 200
    ∧ edgeWeight [(⟨3, 4, 10, 50⟩ : RawRecord)] 3 4 = some 10
    ∧ edgeTimestamp [(⟨3, 4, 10, 50⟩ : RawRecord)] 3 4 = some 50 := by
  have h1 := (claim_C2_edge_collapse [⟨1, 2, 5, 100⟩, ⟨2, 1, 7, 200⟩] 1 2
    (by decide)).1 ⟨1, 2, 5, 100⟩ ⟨2, 1, 7, 200⟩ (by decide) (by decide)
  have h2 := (claim_C2_edge_collapse [⟨3, 4, 10, 50⟩] 3 4
    (by decide)).2.1 ⟨3, 4, 10, 50⟩ (by decide) (by decide)
  refine ⟨by decide, ?_, ?_, ?_, ?_⟩
  · rw [h1.1]; norm_num
  · rw [h1.2]; decide
  · rw [h2.1]; norm_num
  · rw [h2.2]

/-- **C9.** Duplicate directed records: ingestion keeps only the last
record's rating and timestamp per ordered pair (last write wins), while
`talent_score` stays the mean over all raw records targeting the node,
duplicates included — e.g. records `(1→2, 10)` then `(1→2, 4)` store
`(4, 200)` on the directed edge but give node 2 the talent score
`(10 + 4)/2 = 7`. -/
theorem claim_C9_duplicate_directed_records :
    (∀ (recs : List RawRecord) (u v : Int),
        dirData recs u v = (lastDirRecord recs u v).map (fun r => (r.rating, r.ts)))
    ∧ dirData [⟨1, 2, 10, 100⟩, ⟨1, 2, 4, 200⟩] 1 2 = some (4, 200)
    ∧ (∀ cost : Int → Int,
        (buildGraph [⟨1, 2, 10, 100⟩, ⟨1, 2, 4, 200⟩] cost).talent 2 = 7)
    ∧ (∀ (recs : List RawRecord) (cost : Int → Int) (n : Int),
        (buildGraph recs cost).talent n
          = (if (incomingRatings recs n).isEmpty then 0
             else ((incomingRatings recs n).sum : ℚ) / ((incomingRatings recs n).length : ℚ))) := by
  refine ⟨dirData_eq_lastDirRecord, by decide, fun cost => ?_, fun recs cost n => rfl⟩
  norm_num [buildGraph, talentScore, incomingRatings]

/-- **C6 counterexample.** Two raw streams, one with a malformed (2-field)
line and one without, produce literally identical ingestion results and
identical built graphs: no skip count exists anywhere in the loader's output,
so it cannot be "reported as a diagnostic". -/
theorem claim_C6_counterexample :
    ([[1, 2], [1, 2, 3, 100]].filter (fun row => decide (row.length < 4))).length = 1
    ∧ ([[1, 2, 3, 100]].filter (fun row => decide (row.length < 4))).length = 0
    ∧ ingestRows [[1, 2], [1, 2, 3, 100]] = ingestRows [[1, 2, 3, 100]]
    ∧ buildGraph (ingestRows [[1, 2], [1, 2, 3, 100]]) (fun _ => 50)
        = buildGraph (ingestRows [[1, 2, 3, 100]]) (fun _ => 50) := by
  refine ⟨by decide, by decide, by decide, ?_⟩
  exact congrArg (fun l => buildGraph l (fun _ => 50)) (by decide)

/-- **C6 (amended).** The loader never fails on a line with fewer than 4
comma-separated fields: such a line is dropped and ingestion of the remaining
lines continues unchanged (no skip count is computed or reported). -/
theorem claim_C6_amended_skip_and_continue :
    ∀ (row : List Int) (rows : List (List Int)), row.length < 4 →
      ingestRows (row :: rows) = ingestRows rows := by
  intro row rows h
  simp only [ingestRows, List.filterMap_cons]
  rw [parseRow, dif_neg (by omega)]

/-- Witness for the amended C6 on a concrete malformed line. -/
theorem claim_C6_amended_skip_and_continue_witness :
    [1, 2].length < 4 ∧ ingestRows [[1, 2], [7, 8, 9, 50]] = ingestRows [[7, 8, 9, 50]] :=
  ⟨by decide, claim_C6_amended_skip_and_continue [1, 2] [[7, 8, 9, 50]] (by decide)⟩

/-- **C5 counterexample.** At a concrete incumbent (selection `[1]`, value
`5`, runtime `2`), the value returned under status `TimeLimitReached` is
identical to the one returned under `Optimal` — nothing in the result marks
the timeout, so the two statuses are not distinguishable where the coverage
value is presented. -/
theorem claim_C5_counterexample :
    sentinelReturn SolverStatus.timeLimit [1] 5 2
      = sentinelReturn SolverStatus.optimal [1] 5 2 := rfl

/-- **C5 (amended).** On timeout the solver does return the best incumbent
found (`(selected, covered_weight, runtime)`), but the result is not marked:
the return value under `TimeLimitReached` coincides with the return value
under `Optimal` for every incumbent, so a timed-out result is presented
exactly as an exact one. -/
theorem claim_C5_amended_timeout_unmarked :
    ∀ (selected : List Int) (objVal runtime : ℚ),
      sentinelReturn SolverStatus.timeLimit selected objVal runtime
        = (selected, objVal, runtime)
      ∧ sentinelReturn SolverStatus.timeLimit selected objVal runtime
        = sentinelReturn SolverStatus.optimal selected objVal runtime :=
  fun _ _ _ => ⟨rfl, rfl⟩

/-! ### Claims C1 and C7 -/

lemma mem_maintenanceCandidates {G : NGraph} {ms : Int} {c : MCand} :
    c ∈ maintenanceCandidates G ms ↔
      ∃ n ∈ G.nodes, ms < G.lastContacted n ∧ 0 < G.degree n ∧ 0 < G.talent n ∧
        c = ⟨n, G.cost n, G.lastContacted n, G.degree n, G.talent n⟩ := by
  rw [maintenanceCandidates, List.mem_filterMap]
  constructor
  · rintro ⟨n, hn, hf⟩
    rcases h1 : decide (ms < G.lastContacted n) with _ | _
    · rw [if_neg (by simpa using h1)] at hf
      exact absurd hf (by simp)
    · rw [if_pos (by simpa using h1)] at hf
      rcases h2 : decide (0 < G.degree n ∧ 0 < G.talent n) with _ | _
      · rw [if_neg (by simpa using h2)] at hf
        exact absurd hf (by simp)
      · rw [if_pos (of_decide_eq_true h2)] at hf
        have h2p := of_decide_eq_true h2
        exact ⟨n, hn, by simpa using h1, h2p.1, h2p.2, (Option.some_injective _ hf).symm⟩
  · rintro ⟨n, hn, h1, h2, h3, hc⟩
    exact ⟨n, hn, by rw [if_pos h1, if_pos ⟨h2, h3⟩, hc]⟩

lemma totalWeight_nonneg {s : List MCand} (h : ∀ c ∈ s, 0 < c.weight) :
    0 ≤ totalWeight s := by
  induction s with
  | nil => simp [totalWeight]
  | cons c cs ih =>
    have hc := h c (by simp)
    have hcs := ih (fun x hx => h x (List.mem_cons_of_mem _ hx))
    simp only [totalWeight, List.map_cons, List.sum_cons] at hcs ⊢
    omega

lemma totalWeight_pos {s : List MCand} (h : ∀ c ∈ s, 0 < c.weight) (hne : s ≠ []) :
    0 < totalWeight s := by
  cases s with
  | nil => exact absurd rfl hne
  | cons c cs =>
    have hc := h c (by simp)
    have hcs := totalWeight_nonneg (fun x hx => h x (List.mem_cons_of_mem _ hx))
    simp only [totalWeight, List.map_cons, List.sum_cons] at hcs ⊢
    omega

lemma nil_mem_feasibleMSels {G : NGraph} {ms T : Int} (hT : 0 ≤ T) :
    [] ∈ feasibleMSels G ms T := by
  rw [feasibleMSels, List.mem_filter]
  refine ⟨List.mem_sublists.2 (List.nil_sublist _), ?_⟩
  simp only [totalWeight, List.map_nil, List.sum_nil, decide_eq_true_eq]
  exact hT

/-- **C1.** The exact knapsack solve: every selected candidate passes the
dormancy/degree/talent filter and carries the graph's own attribute values;
its value is `ln(days_dormant + 1) · talent_score · sqrt(degree)` and its
weight is its maintenance cost; the selected weights sum to at most `T`; and
no subset of the candidate list within budget `T` attains strictly more total
value — the returned selection is exactly optimal. -/
theorem claim_C1_knapsack_exact :
    ∀ (G : NGraph) (T ms : Int), 0 ≤ T →
      (∀ c ∈ (solve_maintenance_ip G T ms).1,
          ms < c.days_dormant ∧ 0 < c.degree ∧ 0 < c.talent ∧
          c.days_dormant = G.lastContacted c.id ∧ c.degree = G.degree c.id ∧
          c.talent = G.talent c.id ∧ c.weight = G.cost c.id ∧
          mvalue c = Real.log ((c.days_dormant : ℝ) + 1) * (c.talent : ℝ) *
            Real.sqrt (c.degree : ℝ))
      ∧ totalWeight (solve_maintenance_ip G T ms).1 ≤ T
      ∧ (solve_maintenance_ip G T ms).2 = totalMValue (solve_maintenance_ip G T ms).1
      ∧ (∀ alt, alt.Sublist (maintenanceCandidates G ms) → totalWeight alt ≤ T →
          totalMValue alt ≤ (solve_maintenance_ip G T ms).2) := by
  intro G T ms hT
  rcases hm : (feasibleMSels G ms T).argmax totalMValue with _ | s
  · exact absurd (List.argmax_eq_none.1 hm ▸ nil_mem_feasibleMSels hT)
      (List.not_mem_nil [])
  · have hmem := List.argmax_mem hm
    rw [feasibleMSels, List.mem_filter, List.mem_sublists] at hmem
    obtain ⟨hsub, hwt⟩ := hmem
    simp only [solve_maintenance_ip, hm]
    refine ⟨fun c hc => ?_, by simpa using hwt, by trivial, fun alt halt hwalt => ?_⟩
    · have hc2 := mem_maintenanceCandidates.1 (hsub.subset hc)
      obtain ⟨n, hn, h1, h2, h3, hc3⟩ := hc2
      subst hc3
      refine ⟨h1, h2, h3, rfl, rfl, rfl, rfl, ?_⟩
      simp only [mvalue, calculate_urgency]
      ring
    · have halt2 : alt ∈ feasibleMSels G ms T := by
        rw [feasibleMSels, List.mem_filter]
        exact ⟨List.mem_sublists.2 halt, by simpa using hwalt⟩
      exact List.le_of_mem_argmax halt2 hm

/-- Witness for C1 at the concrete instance `exG`, `T = 200`, threshold 30. -/
theorem claim_C1_knapsack_exact_witness :
    ((0 : Int) ≤ 200)
    ∧ ((∀ c ∈ (solve_maintenance_ip exG 200 30).1,
          30 < c.days_dormant ∧ 0 < c.degree ∧ 0 < c.talent ∧
          c.days_dormant = exG.lastContacted c.id ∧ c.degree = exG.degree c.id ∧
          c.talent = exG.talent c.id ∧ c.weight = exG.cost c.id ∧
          mvalue c = Real.log ((c.days_dormant : ℝ) + 1) * (c.talent : ℝ) *
            Real.sqrt (c.degree : ℝ))
      ∧ totalWeight (solve_maintenance_ip exG 200 30).1 ≤ 200
      ∧ (solve_maintenance_ip exG 200 30).2 = totalMValue (solve_maintenance_ip exG 200 30).1
      ∧ (∀ alt, alt.Sublist (maintenanceCandidates exG 30) → totalWeight alt ≤ 200 →
          totalMValue alt ≤ (solve_maintenance_ip exG 200 30).2)) :=
  ⟨by decide, claim_C1_knapsack_exact exG 200 30 (by decide)⟩

lemma coverableBy_nil (G : NGraph) (j : Int) : coverableBy G [] j = false := by
  simp [coverableBy]

lemma ipObjBest_nil (G : NGraph) : ipObjBest G [] = 0 := by
  unfold ipObjBest
  rcases hm : (ipCoverSets G []).argmax (sumTalent G) with _ | Y
  · rfl
  · have hY := List.argmax_mem hm
    rw [ipCoverSets, List.mem_filter] at hY
    cases Y with
    | nil => simp [sumTalent]
    | cons a as =>
      have := hY.2
      simp [List.all_cons, coverableBy_nil] at this

lemma solve_sentinel_ip_budget_zero (G : NGraph) : solve_sentinel_ip G 0 = ([], 0) := by
  unfold solve_sentinel_ip
  rcases hm : (ipSelections G 0).argmax (ipObjBest G) with _ | S
  · have h0 : [] ∈ ipSelections G 0 := by
      rw [ipSelections, List.mem_filter]
      exact ⟨List.mem_sublists.2 (List.nil_sublist _), by simp⟩
    exact absurd (List.argmax_eq_none.1 hm ▸ h0) (List.not_mem_nil [])
  · have hS := List.argmax_mem hm
    rw [ipSelections, List.mem_filter] at hS
    have hlen : S.length = 0 := Nat.le_zero.1 (by simpa using hS.2)
    have hS0 : S = [] := List.length_eq_zero.1 hlen
    subst hS0
    simp [ipObjBest_nil]

lemma solve_sentinel_greedy_budget_zero (G : NGraph) :
    solve_sentinel_greedy G 0 = ([], 0) := rfl

lemma coverScore_nil (G : NGraph) : coverScore G [] = 0 := by
  have h : coveredNodes G [] = [] :=
    List.filter_eq_nil_iff.2 (fun a _ => by simp [coveredB])
  simp [coverScore, h]

lemma solve_sentinel_naive_budget_zero (G : NGraph) :
    solve_sentinel_naive G 0 = ([], 0) := by
  simp [solve_sentinel_naive, coverScore_nil]

/-- **C7.** Degenerate budgets: with `K = 0` all three coverage strategies
return the empty selection with coverage `0`; with `T = 0` and all candidate
weights positive, the knapsack solver returns the empty selection with total
value `0`. -/
theorem claim_C7_degenerate_budgets :
    ∀ (G : NGraph) (ms : Int),
      solve_sentinel_ip G 0 = ([], 0)
      ∧ solve_sentinel_greedy G 0 = ([], 0)
      ∧ solve_sentinel_naive G 0 = ([], 0)
      ∧ ((∀ c ∈ maintenanceCandidates G ms, 0 < c.weight) →
          solve_maintenance_ip G 0 ms = ([], 0)) := by
  intro G ms
  refine ⟨solve_sentinel_ip_budget_zero G, solve_sentinel_greedy_budget_zero G,
    solve_sentinel_naive_budget_zero G, fun hpos => ?_⟩
  rcases hm : (feasibleMSels G ms 0).argmax totalMValue with _ | s
  · exact absurd (List.argmax_eq_none.1 hm ▸ nil_mem_feasibleMSels le_rfl)
      (List.not_mem_nil [])
  · have hmem := List.argmax_mem hm
    rw [feasibleMSels, List.mem_filter, List.mem_sublists] at hmem
    obtain ⟨hsub, hwt⟩ := hmem
    have hs0 : s = [] := by
      by_contra hne
      have := totalWeight_pos (fun c hc => hpos c (hsub.subset hc)) hne
      have hle : totalWeight s ≤ 0 := by simpa using hwt
      omega
    subst hs0
    simp [solve_maintenance_ip, hm, totalMValue]

-- Witness for C7 at the concrete instance `exG` with threshold 30
-- (all maintenance costs are 50, hence positive).
unseal Rat.add Rat.mul Rat.inv Rat.sub in
theorem claim_C7_degenerate_budgets_witness :
    (∀ c ∈ maintenanceCandidates exG 30, 0 < c.weight)
    ∧ solve_sentinel_ip exG 0 = ([], 0)
    ∧ solve_sentinel_greedy exG 0 = ([], 0)
    ∧ solve_sentinel_naive exG 0 = ([], 0)
    ∧ solve_maintenance_ip exG 0 30 = ([], 0) := by
  have h := claim_C7_degenerate_budgets exG 30
  have hpos : ∀ c ∈ maintenanceCandidates exG 30, 0 < c.weight := by decide
  exact ⟨hpos, h.1, h.2.1, h.2.2.1, h.2.2.2 hpos⟩

/-! ### Claim C8: the naive degree baseline -/

lemma insertDescBy_perm (x : Int × Nat) (l : List (Int × Nat)) :
    (insertDescBy x l).Perm (x :: l) := by
  induction l with
  | nil => exact List.Perm.refl _
  | cons y ys ih =>
    unfold insertDescBy
    split
    · exact List.Perm.refl _
    · exact (ih.cons y).trans (List.Perm.swap x y ys)

lemma sortDescBy_perm (l : List (Int × Nat)) : (sortDescBy l).Perm l := by
  induction l with
  | nil => exact List.Perm.refl _
  | cons x xs ih => exact (insertDescBy_perm x (sortDescBy xs)).trans (ih.cons x)

lemma insertDescBy_sorted (x : Int × Nat) {l : List (Int × Nat)}
    (h : l.Pairwise (fun a b => b.2 ≤ a.2)) :
    (insertDescBy x l).Pairwise (fun a b => b.2 ≤ a.2) := by
  induction l with
  | nil => simp [insertDescBy]
  | cons y ys ih =>
    rw [List.pairwise_cons] at h
    unfold insertDescBy
    split
    · rename_i hle
      refine List.Pairwise.cons (fun z hz => ?_) (List.pairwise_cons.2 h)
      rcases List.mem_cons.1 hz with hz | hz
      · exact hz ▸ hle
      · exact le_trans (h.1 z hz) hle
    · rename_i hgt
      push_neg at hgt
      refine List.Pairwise.cons (fun z hz => ?_) (ih h.2)
      have hz2 : z ∈ x :: ys := (insertDescBy_perm x ys).mem_iff.1 hz
      rcases List.mem_cons.1 hz2 with hz2 | hz2
      · exact hz2 ▸ le_of_lt hgt
      · exact h.1 z hz2

lemma insertDescBy_filter_eq (x : Int × Nat) (l : List (Int × Nat)) (d : Nat) :
    ((insertDescBy x l).filter (fun p => decide (p.2 = d)))
      = if x.2 = d then x :: l.filter (fun p => decide (p.2 = d))
        else l.filter (fun p => decide (p.2 = d)) := by
  induction l with
  | nil =>
    rcases hx : decide (x.2 = d) with _ | _
    · simp [insertDescBy, List.filter, hx, of_decide_eq_false hx]
    · simp [insertDescBy, List.filter, hx, of_decide_eq_true hx]
  | cons y ys ih =>
    unfold insertDescBy
    split
    · rename_i hle
      by_cases hx : x.2 = d <;> simp [List.filter_cons, hx]
    · rename_i hgt
      push_neg at hgt
      by_cases hx : x.2 = d
      · have hy : ¬ y.2 = d := by omega
        simp [List.filter_cons, hx, hy, ih]
      · simp only [List.filter_cons, ih, if_neg hx]

lemma sortDescBy_filter_eq (l : List (Int × Nat)) (d : Nat) :
    (sortDescBy l).filter (fun p => decide (p.2 = d))
      = l.filter (fun p => decide (p.2 = d)) := by
  induction l with
  | nil => rfl
  | cons x xs ih =>
    rw [sortDescBy, insertDescBy_filter_eq, List.filter_cons]
    by_cases hx : x.2 = d
    · rw [if_pos hx, ih, if_pos (by simpa using hx)]
    · rw [if_neg hx, ih, if_neg (by simpa using hx)]

/-- **C8 (amended).** The naive baseline considers exactly the positive-degree
nodes paired with their degrees, orders them by degree descending with ties
kept in **node insertion order** (Python's stable sort — not ascending id),
returns the first `k`, and reports as value the sum of `talent_score` over the
union of the selected nodes' neighbor sets, each covered node counted once.
It is a total function (never fails). -/
theorem claim_C8_amended_naive_baseline :
    ∀ (G : NGraph) (k : Nat),
      (solve_sentinel_naive G k).1
          = ((sortDescBy (degreePairs G)).take k).map (fun p => p.1)
      ∧ (sortDescBy (degreePairs G)).Perm (degreePairs G)
      ∧ (sortDescBy (degreePairs G)).Pairwise (fun a b => b.2 ≤ a.2)
      ∧ (∀ d : Nat, (sortDescBy (degreePairs G)).filter (fun p => decide (p.2 = d))
            = (degreePairs G).filter (fun p => decide (p.2 = d)))
      ∧ (solve_sentinel_naive G k).2 = coverScore G ((solve_sentinel_naive G k).1) := by
  intro G k
  have hsorted : (sortDescBy (degreePairs G)).Pairwise (fun a b => b.2 ≤ a.2) := by
    induction degreePairs G with
    | nil => exact List.Pairwise.nil
    | cons x xs ih => exact insertDescBy_sorted x ih
  exact ⟨rfl, sortDescBy_perm _, hsorted, sortDescBy_filter_eq _, rfl⟩

/-- **C8 counterexample.** On the instance `tieG` (raw record `5 → 3`, nodes
inserted in order `[5, 3]`, both of degree 1) the source's naive baseline
picks node `5` for `K = 1`, while the claimed ranking — ties broken by
ascending id — would pick node `3`. -/
theorem claim_C8_counterexample :
    (solve_sentinel_naive tieG 1).1 = [5]
    ∧ specNaiveSelect tieG 1 = [3]
    ∧ tieG.degree 5 = 1 ∧ tieG.degree 3 = 1 :=
  ⟨by decide, by decide, by decide, by decide⟩

/-! ### Weighted-sum lemmas over filtered node lists -/

lemma sum_filter_le_of_imp (l : List Int) (w : Int → ℚ) (p q : Int → Bool)
    (himp : ∀ x ∈ l, p x = true → q x = true)
    (hnn : ∀ x ∈ l, q x = true → p x = false → 0 ≤ w x) :
    ((l.filter p).map w).sum ≤ ((l.filter q).map w).sum := by
  induction l with
  | nil => simp
  | cons a l ih =>
    have himp2 : ∀ x ∈ l, p x = true → q x = true :=
      fun x hx => himp x (List.mem_cons_of_mem _ hx)
    have hnn2 : ∀ x ∈ l, q x = true → p x = false → 0 ≤ w x :=
      fun x hx => hnn x (List.mem_cons_of_mem _ hx)
    have hih := ih himp2 hnn2
    rcases hp : p a with _ | _ <;> rcases hq : q a with _ | _
    · simpa [List.filter_cons, hp, hq] using hih
    · have ha := hnn a (List.mem_cons_self a l) hq hp
      simp [List.filter_cons, hp, hq]
      linarith
    · exact absurd (himp a (List.mem_cons_self a l) hp) (by simp [hq])
    · simp [List.filter_cons, hp, hq]
      linarith

lemma sum_le_sum_filter_pos (l : List Int) (w : Int → ℚ) :
    (l.map w).sum ≤ ((l.filter (fun x => decide (0 < w x))).map w).sum := by
  induction l with
  | nil => simp
  | cons a l ih =>
    rcases hp : decide (0 < w a) with _ | _
    · have ha : w a ≤ 0 := le_of_not_lt (of_decide_eq_false hp)
      simp [List.filter_cons, hp]
      linarith
    · simp [List.filter_cons, hp]
      linarith

lemma sum_filter_pos_ge (l : List Int) (w : Int → ℚ) (p : Int → Bool) :
    ((l.filter p).map w).sum
      ≤ ((l.filter (fun x => p x && decide (0 < w x))).map w).sum := by
  induction l with
  | nil => simp
  | cons a l ih =>
    rcases hp : p a with _ | _
    · simpa [List.filter_cons, hp] using ih
    · rcases hq : decide (0 < w a) with _ | _
      · have ha : w a ≤ 0 := le_of_not_lt (of_decide_eq_false hq)
        simp [List.filter_cons, hp, hq]
        linarith
      · simp [List.filter_cons, hp, hq]
        linarith

lemma sum_filter_or_split (l : List Int) (w : Int → ℚ) (p q : Int → Bool) :
    ((l.filter (fun x => p x || q x)).map w).sum
      = ((l.filter p).map w).sum + ((l.filter (fun x => q x && !p x)).map w).sum := by
  induction l with
  | nil => simp
  | cons a l ih =>
    rcases hp : p a with _ | _ <;> rcases hq : q a with _ | _ <;>
      simp [List.filter_cons, hp, hq, ih] <;> ring

lemma sum_map_sublist_le (w : Int → ℚ) {l1 l2 : List Int} (h : l1.Sublist l2)
    (hnn : ∀ x ∈ l2, 0 ≤ w x) : (l1.map w).sum ≤ (l2.map w).sum := by
  induction h with
  | slnil => simp
  | @cons l1 l2 a h ih =>
    have := ih (fun x hx => hnn x (List.mem_cons_of_mem _ hx))
    have ha := hnn a (List.mem_cons_self a l2)
    simp only [List.map_cons, List.sum_cons]
    linarith
  | @cons₂ l1 l2 a h ih =>
    have := ih (fun x hx => hnn x (List.mem_cons_of_mem _ hx))
    simp only [List.map_cons, List.sum_cons]
    linarith

/-! ### Coverage bookkeeping -/

lemma coveredB_append_single (G : NGraph) (sel : List Int) (c t : Int) :
    coveredB G (sel ++ [c]) t = (coveredB G sel t || G.adj c t) := by
  simp [coveredB, List.any_append]

lemma coveredB_mono {G : NGraph} {sel sel' : List Int}
    (hsub : ∀ s ∈ sel, s ∈ sel') {t : Int} (h : coveredB G sel t = true) :
    coveredB G sel' t = true := by
  rw [coveredB, List.any_eq_true] at h ⊢
  obtain ⟨s, hs, hadj⟩ := h
  exact ⟨s, hsub s hs, hadj⟩

lemma coverScore_append_single (G : NGraph) (sel : List Int) (c : Int) :
    coverScore G (sel ++ [c]) = coverScore G sel + gainOf G sel c := by
  unfold coverScore coveredNodes gainOf
  have h1 : G.nodes.filter (coveredB G (sel ++ [c]))
      = G.nodes.filter (fun t => coveredB G sel t || G.adj c t) :=
    List.filter_congr (fun t _ => coveredB_append_single G sel c t)
  rw [h1, sum_filter_or_split]
  congr 1
  rw [NGraph.neighbors, List.filter_filter]
  exact congrArg _ (congrArg _ (List.filter_congr (fun t _ => by
    rw [Bool.and_comm])))

lemma gainOf_antitone (G : NGraph) {sel sel' : List Int}
    (hsub : ∀ s ∈ sel, s ∈ sel')
    (hw : ∀ n ∈ G.nodes, 0 ≤ G.talent n) (c : Int) :
    gainOf G sel' c ≤ gainOf G sel c := by
  unfold gainOf
  refine sum_filter_le_of_imp _ _ _ _ (fun t ht hp => ?_) (fun t ht _ _ => ?_)
  · rcases hc : coveredB G sel t with _ | _
    · simp
    · rw [Bool.not_eq_true'] at hp
      exact absurd (coveredB_mono hsub hc) (by simp [hp])
  · exact hw t (List.mem_filter.1 ht).1

lemma gainOf_nonneg (G : NGraph) (hw : ∀ n ∈ G.nodes, 0 ≤ G.talent n)
    (sel : List Int) (c : Int) : 0 ≤ gainOf G sel c := by
  unfold gainOf
  refine List.sum_nonneg (fun x hx => ?_)
  obtain ⟨t, ht, rfl⟩ := List.mem_map.1 hx
  exact hw t (List.mem_filter.1 (List.mem_filter.1 ht).1).1

lemma gainOf_mem_zero (G : NGraph) {sel : List Int} {o : Int} (ho : o ∈ sel) :
    gainOf G sel o = 0 := by
  unfold gainOf
  have h : (G.neighbors o).filter (fun t => !coveredB G sel t) = [] := by
    refine List.filter_eq_nil_iff.2 (fun t ht => ?_)
    have hadj : G.adj o t = true := (List.mem_filter.1 ht).2
    have : coveredB G sel t = true := List.any_eq_true.2 ⟨o, ho, hadj⟩
    simp [this]
  rw [h]
  rfl

lemma coverScore_mono (G : NGraph) {sel sel' : List Int}
    (hsub : ∀ s ∈ sel, s ∈ sel')
    (hw : ∀ n ∈ G.nodes, 0 ≤ G.talent n) :
    coverScore G sel ≤ coverScore G sel' := by
  unfold coverScore coveredNodes
  exact sum_filter_le_of_imp _ _ _ _ (fun t _ h => coveredB_mono hsub h)
    (fun t ht _ _ => hw t ht)

lemma coverScore_subadd (G : NGraph) (hw : ∀ n ∈ G.nodes, 0 ≤ G.talent n) :
    ∀ (O sel : List Int),
      coverScore G (sel ++ O) ≤ coverScore G sel + (O.map (gainOf G sel)).sum
  | [], sel => by simp
  | o :: O, sel => by
    have h1 : sel ++ o :: O = (sel ++ [o]) ++ O := by simp
    have ih := coverScore_subadd G hw O (sel ++ [o])
    have h2 : (O.map (gainOf G (sel ++ [o]))).sum ≤ (O.map (gainOf G sel)).sum :=
      List.sum_le_sum (fun i _ =>
        gainOf_antitone G (fun s hs => List.mem_append_left _ hs) hw i)
    rw [h1]
    calc coverScore G ((sel ++ [o]) ++ O)
        ≤ coverScore G (sel ++ [o]) + (O.map (gainOf G (sel ++ [o]))).sum := ih
      _ ≤ (coverScore G sel + gainOf G sel o) + (O.map (gainOf G sel)).sum := by
          rw [coverScore_append_single]
          exact add_le_add le_rfl h2
      _ = coverScore G sel + ((o :: O).map (gainOf G sel)).sum := by
          simp [add_assoc]

/-! ### The candidate scan of the greedy loop -/

lemma pickBest_fold_spec (G : NGraph) (selected covered : List Int) :
    ∀ (cs : List Int) (acc : Option Int × ℚ),
      acc.2 ≤ (cs.foldl (pickStep G selected covered) acc).2
      ∧ (∀ c ∈ cs, c ∉ selected →
          marginalGain G covered c ≤ (cs.foldl (pickStep G selected covered) acc).2)
      ∧ (cs.foldl (pickStep G selected covered) acc = acc
          ∨ ∃ c, (cs.foldl (pickStep G selected covered) acc).1 = some c
              ∧ c ∈ cs ∧ c ∉ selected
              ∧ (cs.foldl (pickStep G selected covered) acc).2
                  = marginalGain G covered c)
  | [], acc => ⟨le_rfl, by simp, Or.inl rfl⟩
  | c :: cs, acc => by
    have ih := pickBest_fold_spec G selected covered cs (pickStep G selected covered acc c)
    have hstep : acc.2 ≤ (pickStep G selected covered acc c).2 := by
      unfold pickStep
      split
      · exact le_rfl
      · dsimp only
        split
        · exact le_of_lt (by assumption)
        · exact le_rfl
    rw [List.foldl_cons]
    refine ⟨le_trans hstep ih.1, fun x hx hxs => ?_, ?_⟩
    · rcases List.mem_cons.1 hx with hx | hx
      · subst hx
        refine le_trans ?_ ih.1
        unfold pickStep
        rw [if_neg hxs]
        dsimp only
        split
        · exact le_rfl
        · exact le_of_not_lt (by assumption)
      · exact ih.2.1 x hx hxs
    · rcases ih.2.2 with heq | ⟨x, hx1, hx2, hx3, hx4⟩
      · rw [heq]
        unfold pickStep
        split
        · exact Or.inl rfl
        · dsimp only
          split
          · exact Or.inr ⟨c, rfl, List.mem_cons_self c cs, by assumption, rfl⟩
          · exact Or.inl rfl
      · exact Or.inr ⟨x, hx1, List.mem_cons_of_mem _ hx2, hx3, hx4⟩

lemma pickBest_some_spec {G : NGraph} {selected covered : List Int} {c : Int} {g : ℚ}
    (h : pickBest G selected covered = (some c, g)) :
    c ∈ G.candidates ∧ c ∉ selected ∧ g = marginalGain G covered c
    ∧ ∀ x ∈ G.candidates, x ∉ selected → marginalGain G covered x ≤ g := by
  have spec := pickBest_fold_spec G selected covered G.candidates (none, -1)
  rw [pickBest] at h
  rcases spec.2.2 with heq | ⟨x, hx1, hx2, hx3, hx4⟩
  · rw [heq] at h
    exact absurd (congrArg Prod.fst h) (by simp)
  · rw [h] at hx1 hx4
    have hxc : c = x := by simpa using hx1
    subst hxc
    have hx4' : g = marginalGain G covered c := by simpa using hx4
    refine ⟨hx2, hx3, hx4', fun y hy hys => ?_⟩
    have hle := spec.2.1 y hy hys
    rw [h] at hle
    simpa using hle

lemma pickBest_none_spec {G : NGraph} {selected covered : List Int} {g : ℚ}
    (h : pickBest G selected covered = (none, g)) :
    ∀ x ∈ G.candidates, x ∉ selected → marginalGain G covered x ≤ 0 := by
  have spec := pickBest_fold_spec G selected covered G.candidates (none, -1)
  rw [pickBest] at h
  intro x hx hxs
  have hle := spec.2.1 x hx hxs
  rcases spec.2.2 with heq | ⟨y, hy1, _, _, _⟩
  · rw [heq] at hle
    have hle2 : marginalGain G covered x ≤ (-1 : ℚ) := by simpa using hle
    linarith
  · rw [h] at hy1
    exact absurd hy1 (by simp)

/-! ### The greedy loop invariant -/

lemma marginalGain_eq_gainOf (G : NGraph) {covered sel : List Int}
    (h : ∀ t, t ∈ covered ↔ coveredB G sel t = true) (c : Int) :
    marginalGain G covered c = gainOf G sel c := by
  unfold marginalGain gainOf
  have h2 : (G.neighbors c).filter (fun t => decide (t ∉ covered))
      = (G.neighbors c).filter (fun t => !coveredB G sel t) :=
    List.filter_congr (fun t _ => by
      rcases hc : coveredB G sel t with _ | _ <;> simp [hc, h t])
  rw [h2]

lemma greedy_step_inv (G : NGraph)
    (hadjmem : ∀ u v, G.adj u v = true → v ∈ G.nodes)
    {st : GState} {c : Int} {g : ℚ}
    (hp : pickBest G st.selected st.covered = (some c, g))
    (hinv : GInv G st) :
    GInv G ⟨st.selected ++ [c],
        st.covered ++ ((G.neighbors c).filter (fun t => decide (t ∉ st.covered))),
        st.score + g⟩ := by
  obtain ⟨hsel, hnd, hcov, hscore⟩ := hinv
  obtain ⟨hc1, hc2, hc3, _⟩ := pickBest_some_spec hp
  have hgain : g = gainOf G st.selected c :=
    hc3.trans (marginalGain_eq_gainOf G hcov c)
  refine ⟨?_, ?_, ?_, ?_⟩
  · intro s hs
    rcases List.mem_append.1 hs with hs | hs
    · exact hsel s hs
    · rw [List.mem_singleton.1 hs]
      exact hc1
  · rw [List.nodup_append]
    exact ⟨hnd, List.nodup_singleton c, by simpa using hc2⟩
  · intro t
    rw [List.mem_append, coveredB_append_single, Bool.or_eq_true, ← hcov t]
    constructor
    · rintro (ht | ht)
      · exact Or.inl ht
      · have := List.mem_filter.1 ht
        exact Or.inr (List.mem_filter.1 this.1).2
    · rintro (ht | ht)
      · exact Or.inl ht
      · by_cases htc : t ∈ st.covered
        · exact Or.inl htc
        · refine Or.inr (List.mem_filter.2 ⟨List.mem_filter.2 ⟨?_, ht⟩, ?_⟩)
          · exact hadjmem c t ht
          · simpa using htc
  · dsimp only
    rw [hscore, hgain, coverScore_append_single]

lemma greedyLoop_inv (G : NGraph)
    (hadjmem : ∀ u v, G.adj u v = true → v ∈ G.nodes) :
    ∀ (fuel : Nat) (st : GState), GInv G st →
      GInv G (greedyLoop G fuel st)
      ∧ (greedyLoop G fuel st).selected.length ≤ st.selected.length + fuel
      ∧ st.score ≤ (greedyLoop G fuel st).score
  | 0, st, hinv => ⟨hinv, by simp [greedyLoop], le_rfl⟩
  | Nat.succ fuel, st, hinv => by
    obtain ⟨hsel, hnd, hcov, hscore⟩ := hinv
    rw [greedyLoop]
    rcases hp : pickBest G st.selected st.covered with ⟨b, g⟩
    rcases b with _ | c
    · dsimp only
      exact ⟨⟨hsel, hnd, hcov, hscore⟩, by omega, le_rfl⟩
    · dsimp only
      rcases hg : decide (0 < g) with _ | _
      · rw [if_neg (of_decide_eq_false hg)]
        exact ⟨⟨hsel, hnd, hcov, hscore⟩, by omega, le_rfl⟩
      · have hgpos := of_decide_eq_true hg
        rw [if_pos hgpos]
        have hinv2 := greedy_step_inv G hadjmem hp ⟨hsel, hnd, hcov, hscore⟩
        have hrec := greedyLoop_inv G hadjmem fuel _ hinv2
        refine ⟨hrec.1, ?_, ?_⟩
        · have := hrec.2.1
          simp only [List.length_append, List.length_singleton] at this
          omega
        · have hs2 := hrec.2.2
          dsimp only at hs2
          linarith

/-- **C10.** The incrementally accumulated greedy score always equals the
set-semantics coverage of the returned selection: the sum of `talent_score`
over the union of the selected sentinels' neighbor sets (each covered node
counted once — the covered-node list of a built graph has no duplicates). -/
theorem claim_C10_greedy_score_consistent :
    ∀ (recs : List RawRecord) (cost : Int → Int) (k : Nat),
      (solve_sentinel_greedy (buildGraph recs cost) k).2
        = coverScore (buildGraph recs cost)
            ((solve_sentinel_greedy (buildGraph recs cost) k).1)
      ∧ (coveredNodes (buildGraph recs cost)
            ((solve_sentinel_greedy (buildGraph recs cost) k).1)).Nodup := by
  intro recs cost k
  have hadjmem : ∀ u v, (buildGraph recs cost).adj u v = true →
      v ∈ (buildGraph recs cost).nodes :=
    fun u v h => (buildGraph_adj_mem recs cost h).2
  have hinv0 : GInv (buildGraph recs cost) ⟨[], [], 0⟩ := by
    refine ⟨by simp, List.nodup_nil, fun t => ?_, (coverScore_nil _).symm⟩
    simp [coveredB]
  have h := (greedyLoop_inv (buildGraph recs cost) hadjmem k ⟨[], [], 0⟩ hinv0).1
  refine ⟨h.2.2.2, ?_⟩
  exact List.Nodup.filter _ (buildGraph_nodes_nodup recs cost)

/-! ### The exact coverage solve: closed form and dominance -/

lemma and_true_split {a b : Bool} (h : (a && b) = true) : a = true ∧ b = true := by
  simp only [Bool.and_eq_true] at h
  exact h

lemma nil_mem_ipSelections (G : NGraph) (k : Nat) : [] ∈ ipSelections G k := by
  rw [ipSelections, List.mem_filter]
  exact ⟨List.mem_sublists.2 (List.nil_sublist _), by simp⟩

lemma solve_sentinel_ip_spec (G : NGraph) (k : Nat) :
    ∃ S0, solve_sentinel_ip G k = (S0, ipObjBest G S0)
      ∧ S0 ∈ ipSelections G k
      ∧ ∀ S ∈ ipSelections G k, ipObjBest G S ≤ ipObjBest G S0 := by
  unfold solve_sentinel_ip
  rcases hm : (ipSelections G k).argmax (ipObjBest G) with _ | S0
  · exact absurd (List.argmax_eq_none.1 hm ▸ nil_mem_ipSelections G k)
      (List.not_mem_nil [])
  · exact ⟨S0, rfl, List.argmax_mem hm, fun S hS => List.le_of_mem_argmax hS hm⟩

lemma mem_knowers {G : NGraph} {j i : Int} :
    i ∈ knowers G j ↔ i ∈ G.neighbors j ∧ i ∈ G.candidates := by
  simp [knowers]

lemma coverableBy_true_iff {G : NGraph} {S : List Int} {j : Int} :
    coverableBy G S j = true ↔ ∃ i ∈ knowers G j, i ∈ S := by
  simp [coverableBy]

/-- The MILP's inner `y`-optimization in closed form: for a fixed selection
the objective optimum is the talent sum over the coverable talents of
positive score. -/
lemma ipObjBest_eq (G : NGraph) (S : List Int) :
    ipObjBest G S
      = sumTalent G (G.candidates.filter
          (fun j => coverableBy G S j && decide (0 < G.talent j))) := by
  set Ystar := G.candidates.filter
    (fun j => coverableBy G S j && decide (0 < G.talent j)) with hY
  have hmem : Ystar ∈ ipCoverSets G S := by
    rw [ipCoverSets, List.mem_filter, List.mem_sublists]
    refine ⟨List.filter_sublist _, ?_⟩
    rw [List.all_eq_true]
    intro j hj
    exact (and_true_split (List.mem_filter.1 hj).2).1
  have hub : ∀ Y ∈ ipCoverSets G S, sumTalent G Y ≤ sumTalent G Ystar := by
    intro Y hYm
    rw [ipCoverSets, List.mem_filter, List.mem_sublists] at hYm
    obtain ⟨hsub, hall⟩ := hYm
    rw [List.all_eq_true] at hall
    have h1 : sumTalent G Y
        ≤ ((Y.filter (fun j => decide (0 < G.talent j))).map G.talent).sum :=
      sum_le_sum_filter_pos Y G.talent
    have h2 : Y.filter (fun j => decide (0 < G.talent j))
        = Y.filter (fun j => coverableBy G S j && decide (0 < G.talent j)) :=
      (List.filter_congr (fun j hj => by rw [hall j hj, Bool.true_and])).symm
    have h3 : (Y.filter
        (fun j => coverableBy G S j && decide (0 < G.talent j))).Sublist Ystar :=
      hsub.filter _
    have h4 : ∀ x ∈ Ystar, 0 ≤ G.talent x := by
      intro x hx
      exact le_of_lt (of_decide_eq_true
        (and_true_split (List.mem_filter.1 hx).2).2)
    calc sumTalent G Y
        ≤ ((Y.filter (fun j => decide (0 < G.talent j))).map G.talent).sum := h1
      _ = ((Y.filter (fun j => coverableBy G S j && decide (0 < G.talent j))).map
            G.talent).sum := by rw [h2]
      _ ≤ (Ystar.map G.talent).sum := sum_map_sublist_le G.talent h3 h4
      _ = sumTalent G Ystar := rfl
  unfold ipObjBest
  rcases hm : (ipCoverSets G S).argmax (sumTalent G) with _ | Y0
  · exact absurd (List.argmax_eq_none.1 hm ▸ hmem) (List.not_mem_nil _)
  · exact le_antisymm (hub Y0 (List.argmax_mem hm)) (List.le_of_mem_argmax hmem hm)

lemma coverableBy_congr (G : NGraph) {S S' : List Int}
    (h : ∀ i ∈ G.candidates, (i ∈ S ↔ i ∈ S')) (j : Int) :
    coverableBy G S j = coverableBy G S' j := by
  rw [Bool.eq_iff_iff, coverableBy_true_iff, coverableBy_true_iff]
  constructor
  · rintro ⟨i, hi, his⟩
    exact ⟨i, hi, (h i (mem_knowers.1 hi).2).1 his⟩
  · rintro ⟨i, hi, his⟩
    exact ⟨i, hi, (h i (mem_knowers.1 hi).2).2 his⟩

lemma ipObjBest_congr (G : NGraph) {S S' : List Int}
    (h : ∀ i ∈ G.candidates, (i ∈ S ↔ i ∈ S')) :
    ipObjBest G S = ipObjBest G S' := by
  have hfun : coverableBy G S = coverableBy G S' := funext (coverableBy_congr G h)
  unfold ipObjBest ipCoverSets
  rw [hfun]

/-- Any duplicate-free selection of at most `k` candidates has its coverage
value dominated by the exact solve's objective. -/
lemma coverScore_le_ip (G : NGraph) (k : Nat) (sel : List Int)
    (hndN : G.nodes.Nodup)
    (hsym : ∀ u v, G.adj u v = G.adj v u)
    (hsel : ∀ s ∈ sel, s ∈ G.candidates) (hnd : sel.Nodup)
    (hlen : sel.length ≤ k) :
    coverScore G sel ≤ (solve_sentinel_ip G k).2 := by
  set Ssub := G.candidates.filter (fun i => decide (i ∈ sel)) with hSdef
  have hmemiff : ∀ i, i ∈ Ssub ↔ (i ∈ G.candidates ∧ i ∈ sel) := by
    intro i
    simp [hSdef, List.mem_filter]
  have hS : Ssub ∈ ipSelections G k := by
    rw [ipSelections, List.mem_filter, List.mem_sublists]
    refine ⟨List.filter_sublist _, ?_⟩
    have hnd2 : Ssub.Nodup := (hndN.filter _).filter _
    have hsubset : ∀ x ∈ Ssub, x ∈ sel := fun x hx => ((hmemiff x).1 hx).2
    have hle := (List.Nodup.subperm hnd2 hsubset).length_le
    simp only [decide_eq_true_eq]
    omega
  have step1 : coverScore G sel
      ≤ ((G.nodes.filter
          (fun t => coveredB G sel t && decide (0 < G.talent t))).map G.talent).sum :=
    sum_filter_pos_ge G.nodes G.talent (coveredB G sel)
  have step2 : ((G.nodes.filter
        (fun t => coveredB G sel t && decide (0 < G.talent t))).map G.talent).sum
      ≤ ((G.nodes.filter (fun t => decide (0 < G.degree t)
            && (coverableBy G Ssub t && decide (0 < G.talent t)))).map G.talent).sum := by
    refine sum_filter_le_of_imp _ _ _ _ (fun t _ hp => ?_) (fun t _ hq _ => ?_)
    · obtain ⟨hcv, hpos⟩ := and_true_split hp
      obtain ⟨s, hs, hadj⟩ := List.any_eq_true.1 hcv
      have hsc : s ∈ G.candidates := hsel s hs
      have hsn : s ∈ G.nodes := (List.mem_filter.1 hsc).1
      have hadj2 : G.adj t s = true := by rw [hsym t s]; exact hadj
      have hsnb : s ∈ G.neighbors t := List.mem_filter.2 ⟨hsn, hadj2⟩
      have hdeg : 0 < G.degree t := by
        have hl : 0 < (G.neighbors t).length :=
          List.length_pos.2 (List.ne_nil_of_mem hsnb)
        exact Nat.lt_of_lt_of_le hl (Nat.le_add_right _ _)
      have hcov2 : coverableBy G Ssub t = true :=
        coverableBy_true_iff.2 ⟨s, mem_knowers.2 ⟨hsnb, hsc⟩,
          (hmemiff s).2 ⟨hsc, hs⟩⟩
      simp [hdeg, hcov2, hpos]
    · exact le_of_lt (of_decide_eq_true
        (and_true_split (and_true_split hq).2).2)
  have step3 : G.nodes.filter (fun t => decide (0 < G.degree t)
        && (coverableBy G Ssub t && decide (0 < G.talent t)))
      = G.candidates.filter (fun j => coverableBy G Ssub j && decide (0 < G.talent j)) := by
    rw [NGraph.candidates, List.filter_filter]
    exact (List.filter_congr (fun t _ => Bool.and_comm _ _)).symm
  obtain ⟨S0, hS0eq, _, hS0max⟩ := solve_sentinel_ip_spec G k
  have hfinal : coverScore G sel ≤ ipObjBest G Ssub := by
    rw [ipObjBest_eq]
    calc coverScore G sel
        ≤ _ := step1
      _ ≤ _ := step2
      _ = sumTalent G (G.candidates.filter
            (fun j => coverableBy G Ssub j && decide (0 < G.talent j))) := by
          rw [step3]
          rfl
  rw [hS0eq]
  exact le_trans hfinal (hS0max Ssub hS)

/-- **C4 (amended).** For every built graph and budget `K`:
`IP coverage ≥ Greedy coverage ≥ 0` and `IP coverage ≥ Naive coverage`
(the naive coverage itself can be negative — see the counterexample). -/
theorem claim_C4_amended_dominance :
    ∀ (recs : List RawRecord) (cost : Int → Int) (k : Nat),
      0 ≤ (solve_sentinel_greedy (buildGraph recs cost) k).2
      ∧ (solve_sentinel_greedy (buildGraph recs cost) k).2
          ≤ (solve_sentinel_ip (buildGraph recs cost) k).2
      ∧ (solve_sentinel_naive (buildGraph recs cost) k).2
          ≤ (solve_sentinel_ip (buildGraph recs cost) k).2 := by
  intro recs cost k
  have hndN : (buildGraph recs cost).nodes.Nodup := buildGraph_nodes_nodup recs cost
  have hsym := buildGraph_adj_symm recs cost
  have hadjmem : ∀ u v, (buildGraph recs cost).adj u v = true →
      v ∈ (buildGraph recs cost).nodes :=
    fun u v h => (buildGraph_adj_mem recs cost h).2
  have hinv0 : GInv (buildGraph recs cost) ⟨[], [], 0⟩ := by
    refine ⟨by simp, List.nodup_nil, fun t => ?_, (coverScore_nil _).symm⟩
    simp [coveredB]
  obtain ⟨⟨hsel, hnd, _, hscore⟩, hlen, hmono⟩ :=
    greedyLoop_inv (buildGraph recs cost) hadjmem k ⟨[], [], 0⟩ hinv0
  refine ⟨hmono, ?_, ?_⟩
  · have h := coverScore_le_ip (buildGraph recs cost) k _ hndN hsym hsel hnd
      (by simpa using hlen)
    rw [← hscore] at h
    exact h
  · have hperm : (sortDescBy (degreePairs (buildGraph recs cost))).Perm
        (degreePairs (buildGraph recs cost)) := sortDescBy_perm _
    have hfst : (degreePairs (buildGraph recs cost)).map (fun p => p.1)
        = (buildGraph recs cost).candidates := by
      rw [degreePairs, NGraph.candidates, List.map_map]
      exact List.map_id _
    have hselN : ∀ s ∈ ((sortDescBy (degreePairs (buildGraph recs cost))).take k).map
        (fun p => p.1), s ∈ (buildGraph recs cost).candidates := by
      intro s hs
      obtain ⟨p, hp, rfl⟩ := List.mem_map.1 hs
      have hp2 : p ∈ sortDescBy (degreePairs (buildGraph recs cost)) :=
        (List.take_sublist k _).subset hp
      rw [← hfst]
      exact List.mem_map_of_mem _ (hperm.mem_iff.1 hp2)
    have hndsel : (((sortDescBy (degreePairs (buildGraph recs cost))).take k).map
        (fun p => p.1)).Nodup := by
      have h1 : ((sortDescBy (degreePairs (buildGraph recs cost))).map
          (fun p => p.1)).Nodup := by
        have h2 := hperm.map (fun p : Int × Nat => p.1)
        rw [hfst] at h2
        exact h2.nodup_iff.2 (hndN.filter _)
      exact ((List.take_sublist k _).map _).nodup h1
    have hlenN : (((sortDescBy (degreePairs (buildGraph recs cost))).take k).map
        (fun p => p.1)).length ≤ k := by
      rw [List.length_map]
      exact List.length_take_le k _
    exact coverScore_le_ip (buildGraph recs cost) k _ hndN hsym hselN hndsel hlenN

-- **C4 counterexample.** On the instance `negG` (a lone rating `2 → 1` of
-- `-5`) the naive baseline at `K = 1` selects node 2 and reports coverage
-- `-5 < 0`, refuting `Naive coverage ≥ 0`.
unseal Rat.add Rat.mul Rat.inv Rat.sub in
theorem claim_C4_counterexample :
    (solve_sentinel_naive negG 1).2 = -5
    ∧ ¬ (0 ≤ (solve_sentinel_naive negG 1).2) := by
  constructor <;> decide

/-! ### Claim C3: the greedy approximation ratio -/

/-- The exact coverage value is at most the coverage of the current greedy
selection plus `k` times any uniform bound on the remaining marginal gains
(the classical submodular maximization step bound; needs nonnegative
talent scores). -/
lemma ip_le_score_add (G : NGraph) (k : Nat) (sel : List Int) (g : ℚ)
    (hsym : ∀ u v, G.adj u v = G.adj v u)
    (hw : ∀ n ∈ G.nodes, 0 ≤ G.talent n)
    (hsel : ∀ s ∈ sel, s ∈ G.candidates)
    (hg0 : 0 ≤ g)
    (hmax : ∀ c ∈ G.candidates, c ∉ sel → gainOf G sel c ≤ g) :
    (solve_sentinel_ip G k).2 ≤ coverScore G sel + (k : ℚ) * g := by
  obtain ⟨S0, hS0eq, hS0mem, _⟩ := solve_sentinel_ip_spec G k
  rw [ipSelections, List.mem_filter, List.mem_sublists] at hS0mem
  obtain ⟨hS0sub, hS0len⟩ := hS0mem
  have hS0len2 : S0.length ≤ k := by simpa using hS0len
  have h1 : ipObjBest G S0 ≤ coverScore G S0 := by
    rw [ipObjBest_eq]
    have hfilter : G.candidates.filter
          (fun j => coverableBy G S0 j && decide (0 < G.talent j))
        = G.nodes.filter (fun j => (coverableBy G S0 j && decide (0 < G.talent j))
            && decide (0 < G.degree j)) := by
      rw [NGraph.candidates, List.filter_filter]
    rw [sumTalent, hfilter]
    refine sum_filter_le_of_imp _ _ _ _ (fun t _ hp => ?_) (fun t ht _ _ => hw t ht)
    · obtain ⟨hcp, _⟩ := and_true_split hp
      obtain ⟨hcv, _⟩ := and_true_split hcp
      obtain ⟨i, hik, hiS⟩ := coverableBy_true_iff.1 hcv
      have hinb : i ∈ G.neighbors t := (mem_knowers.1 hik).1
      have hadj : G.adj i t = true := by
        rw [← hsym t i]
        exact (List.mem_filter.1 hinb).2
      exact List.any_eq_true.2 ⟨i, hiS, hadj⟩
  have h2 : coverScore G S0 ≤ coverScore G (sel ++ S0) :=
    coverScore_mono G (fun s hs => List.mem_append_right _ hs) hw
  have h3 : coverScore G (sel ++ S0)
      ≤ coverScore G sel + (S0.map (gainOf G sel)).sum :=
    coverScore_subadd G hw S0 sel
  have h4 : (S0.map (gainOf G sel)).sum ≤ (S0.length : ℚ) * g := by
    have hb : ∀ x ∈ S0.map (gainOf G sel), x ≤ g := by
      intro x hx
      obtain ⟨o, ho, rfl⟩ := List.mem_map.1 hx
      by_cases hos : o ∈ sel
      · rw [gainOf_mem_zero G hos]
        exact hg0
      · exact hmax o (hS0sub.subset ho) hos
    have := List.sum_le_card_nsmul (S0.map (gainOf G sel)) g hb
    rw [List.length_map, nsmul_eq_mul] at this
    exact this
  have h5 : (S0.length : ℚ) * g ≤ (k : ℚ) * g := by
    have : (S0.length : ℚ) ≤ (k : ℚ) := by exact_mod_cast hS0len2
    exact mul_le_mul_of_nonneg_right this hg0
  rw [hS0eq]
  calc ipObjBest G S0 ≤ coverScore G S0 := h1
    _ ≤ coverScore G (sel ++ S0) := h2
    _ ≤ coverScore G sel + (S0.map (gainOf G sel)).sum := h3
    _ ≤ coverScore G sel + (S0.length : ℚ) * g := by linarith
    _ ≤ coverScore G sel + (k : ℚ) * g := by linarith

/-- The geometric contraction of the optimality gap along the greedy loop. -/
lemma greedy_contraction (G : NGraph) (k : Nat)
    (hsym : ∀ u v, G.adj u v = G.adj v u)
    (hadjmem : ∀ u v, G.adj u v = true → v ∈ G.nodes)
    (hw : ∀ n ∈ G.nodes, 0 ≤ G.talent n)
    (hk : 0 < k) :
    ∀ (fuel : Nat) (st : GState), GInv G st →
      ((solve_sentinel_ip G k).2 : ℝ) - ((greedyLoop G fuel st).score : ℝ)
        ≤ (1 - 1/(k:ℝ))^fuel * (((solve_sentinel_ip G k).2 : ℝ) - ((st.score : ℚ) : ℝ))
  | 0, st, _ => by simp [greedyLoop]
  | Nat.succ fuel, st, hinv => by
    have hkR : (1:ℝ) ≤ (k:ℝ) := by exact_mod_cast hk
    have hkpos : (0:ℝ) < (k:ℝ) := by linarith
    have hd1 : 1/(k:ℝ) ≤ 1 := by
      rw [div_le_one hkpos]
      exact hkR
    have hd0 : (0:ℝ) ≤ 1/(k:ℝ) := by positivity
    have hcoef0 : (0:ℝ) ≤ 1 - 1/(k:ℝ) := by linarith
    have hcoef1 : 1 - 1/(k:ℝ) ≤ 1 := by linarith
    have hpow0 : (0:ℝ) ≤ (1 - 1/(k:ℝ))^fuel := pow_nonneg hcoef0 _
    have hpow1 : (1 - 1/(k:ℝ))^(Nat.succ fuel) ≤ 1 := pow_le_one₀ hcoef0 hcoef1
    have hpow0s : (0:ℝ) ≤ (1 - 1/(k:ℝ))^(Nat.succ fuel) := pow_nonneg hcoef0 _
    obtain ⟨hsel, hnd, hcov, hscore⟩ := hinv
    rw [greedyLoop]
    rcases hp : pickBest G st.selected st.covered with ⟨b, g⟩
    rcases b with _ | c
    · dsimp only
      have hstop : ∀ x ∈ G.candidates, x ∉ st.selected → gainOf G st.selected x ≤ 0 :=
        fun x hx hxs => (marginalGain_eq_gainOf G hcov x) ▸ pickBest_none_spec hp x hx hxs
      have hip := ip_le_score_add G k st.selected 0 hsym hw hsel le_rfl hstop
      rw [mul_zero, add_zero, ← hscore] at hip
      have hipR : ((solve_sentinel_ip G k).2 : ℝ) - ((st.score : ℚ) : ℝ) ≤ 0 := by
        have : ((solve_sentinel_ip G k).2 : ℝ) ≤ ((st.score : ℚ) : ℝ) := by
          exact_mod_cast hip
        linarith
      nlinarith [hipR, hpow1, hpow0s]
    · dsimp only
      rcases hg : decide (0 < g) with _ | _
      · rw [if_neg (of_decide_eq_false hg)]
        have hgle : g ≤ 0 := le_of_not_lt (of_decide_eq_false hg)
        obtain ⟨_, _, _, hmax⟩ := pickBest_some_spec hp
        have hstop : ∀ x ∈ G.candidates, x ∉ st.selected →
            gainOf G st.selected x ≤ 0 := fun x hx hxs =>
          le_trans ((marginalGain_eq_gainOf G hcov x) ▸ hmax x hx hxs) hgle
        have hip := ip_le_score_add G k st.selected 0 hsym hw hsel le_rfl hstop
        rw [mul_zero, add_zero, ← hscore] at hip
        have hipR : ((solve_sentinel_ip G k).2 : ℝ) - ((st.score : ℚ) : ℝ) ≤ 0 := by
          have : ((solve_sentinel_ip G k).2 : ℝ) ≤ ((st.score : ℚ) : ℝ) := by
            exact_mod_cast hip
          linarith
        nlinarith [hipR, hpow1, hpow0s]
      · have hgpos := of_decide_eq_true hg
        rw [if_pos hgpos]
        obtain ⟨_, _, _, hmax⟩ := pickBest_some_spec hp
        have hmax2 : ∀ x ∈ G.candidates, x ∉ st.selected →
            gainOf G st.selected x ≤ g := fun x hx hxs =>
          (marginalGain_eq_gainOf G hcov x) ▸ hmax x hx hxs
        have hip := ip_le_score_add G k st.selected g hsym hw hsel
          (le_of_lt hgpos) hmax2
        rw [← hscore] at hip
        have hinv2 := greedy_step_inv G hadjmem hp ⟨hsel, hnd, hcov, hscore⟩
        have hrec := greedy_contraction G k hsym hadjmem hw hk fuel _ hinv2
        dsimp only at hrec
        have hipR : ((solve_sentinel_ip G k).2 : ℝ)
            ≤ ((st.score : ℚ) : ℝ) + (k:ℝ) * ((g : ℚ) : ℝ) := by
          exact_mod_cast hip
        have hcast : (((st.score + g : ℚ)) : ℝ) = ((st.score : ℚ) : ℝ) + ((g : ℚ) : ℝ) := by
          push_cast
          ring
        rw [hcast] at hrec
        have hstep : ((solve_sentinel_ip G k).2 : ℝ) - (((st.score : ℚ) : ℝ) + ((g : ℚ) : ℝ))
            ≤ (1 - 1/(k:ℝ)) * (((solve_sentinel_ip G k).2 : ℝ) - ((st.score : ℚ) : ℝ)) := by
          have hgap : ((solve_sentinel_ip G k).2 : ℝ) - ((st.score : ℚ) : ℝ)
              ≤ (k:ℝ) * ((g : ℚ) : ℝ) := by linarith
          have hdiv : (((solve_sentinel_ip G k).2 : ℝ) - ((st.score : ℚ) : ℝ)) / (k:ℝ)
              ≤ ((g : ℚ) : ℝ) := by
            rw [div_le_iff₀ hkpos]
            linarith [hgap]
          have hexp : (1 - 1/(k:ℝ)) * (((solve_sentinel_ip G k).2 : ℝ) - ((st.score : ℚ) : ℝ))
              = (((solve_sentinel_ip G k).2 : ℝ) - ((st.score : ℚ) : ℝ))
                - (((solve_sentinel_ip G k).2 : ℝ) - ((st.score : ℚ) : ℝ)) / (k:ℝ) := by
            field_simp
            ring
          rw [hexp]
          linarith [hdiv]
        calc ((solve_sentinel_ip G k).2 : ℝ) - ((greedyLoop G fuel _).score : ℝ)
            ≤ (1 - 1/(k:ℝ))^fuel * (((solve_sentinel_ip G k).2 : ℝ)
                - (((st.score : ℚ) : ℝ) + ((g : ℚ) : ℝ))) := hrec
          _ ≤ (1 - 1/(k:ℝ))^fuel * ((1 - 1/(k:ℝ))
                * (((solve_sentinel_ip G k).2 : ℝ) - ((st.score : ℚ) : ℝ))) :=
              mul_le_mul_of_nonneg_left hstep hpow0
          _ = (1 - 1/(k:ℝ))^(fuel + 1)
                * (((solve_sentinel_ip G k).2 : ℝ) - ((st.score : ℚ) : ℝ)) := by
              rw [pow_succ]
              ring

/-- The exact coverage value is nonnegative (set every `y` to zero). -/
lemma ip_value_nonneg (G : NGraph) (k : Nat) : 0 ≤ (solve_sentinel_ip G k).2 := by
  obtain ⟨S0, heq, _, hmax⟩ := solve_sentinel_ip_spec G k
  have h := hmax [] (nil_mem_ipSelections G k)
  rw [heq]
  calc (0:ℚ) = ipObjBest G [] := (ipObjBest_nil G).symm
    _ ≤ ipObjBest G S0 := h

/-- `(1 - 1/k)^k ≤ 1/e` for `k ≥ 1`. -/
lemma one_sub_inv_pow_le (k : Nat) (hk : 0 < k) :
    (1 - 1/(k:ℝ))^k ≤ (Real.exp 1)⁻¹ := by
  have hkR : (1:ℝ) ≤ (k:ℝ) := by exact_mod_cast hk
  have hkpos : (0:ℝ) < (k:ℝ) := by linarith
  have h0 : (0:ℝ) ≤ 1 - 1/(k:ℝ) := by
    have : 1/(k:ℝ) ≤ 1 := by
      rw [div_le_one hkpos]
      exact hkR
    linarith
  have h1 : (1:ℝ) - 1/(k:ℝ) ≤ Real.exp (-(1/(k:ℝ))) := by
    have := Real.add_one_le_exp (-(1/(k:ℝ)))
    linarith
  have h2 : (1 - 1/(k:ℝ))^k ≤ (Real.exp (-(1/(k:ℝ))))^k :=
    pow_le_pow_left₀ h0 h1 k
  have h3 : (Real.exp (-(1/(k:ℝ))))^k = Real.exp (-1) := by
    rw [← Real.exp_nat_mul]
    congr 1
    field_simp
  rw [h3, Real.exp_neg] at h2
  exact h2

/-- **C3 (amended).** When all talent scores are nonnegative, the greedy
coverage is at least `(1 - 1/e)` times the exact coverage, for every built
graph and budget `K`.  (Without the nonnegativity hypothesis the guarantee
fails on the code — see the counterexample.) -/
theorem claim_C3_amended_greedy_ratio :
    ∀ (recs : List RawRecord) (cost : Int → Int) (k : Nat),
      (∀ n ∈ (buildGraph recs cost).nodes, 0 ≤ (buildGraph recs cost).talent n) →
      ((1 : ℝ) - (Real.exp 1)⁻¹) * ((solve_sentinel_ip (buildGraph recs cost) k).2 : ℝ)
        ≤ ((solve_sentinel_greedy (buildGraph recs cost) k).2 : ℝ) := by
  intro recs cost k hw
  have hsym := buildGraph_adj_symm recs cost
  have hadjmem : ∀ u v, (buildGraph recs cost).adj u v = true →
      v ∈ (buildGraph recs cost).nodes :=
    fun u v h => (buildGraph_adj_mem recs cost h).2
  rcases Nat.eq_zero_or_pos k with hk0 | hkpos
  · subst hk0
    rw [solve_sentinel_ip_budget_zero, solve_sentinel_greedy_budget_zero]
    norm_num
  · have hinv0 : GInv (buildGraph recs cost) ⟨[], [], 0⟩ := by
      refine ⟨by simp, List.nodup_nil, fun t => ?_, (coverScore_nil _).symm⟩
      simp [coveredB]
    have hcontr := greedy_contraction (buildGraph recs cost) k hsym hadjmem hw
      hkpos k ⟨[], [], 0⟩ hinv0
    have hOPT0 : (0:ℝ) ≤ ((solve_sentinel_ip (buildGraph recs cost) k).2 : ℝ) := by
      exact_mod_cast ip_value_nonneg (buildGraph recs cost) k
    have hek := one_sub_inv_pow_le k hkpos
    have hco : (1 - 1/(k:ℝ))^k * ((solve_sentinel_ip (buildGraph recs cost) k).2 : ℝ)
        ≤ (Real.exp 1)⁻¹ * ((solve_sentinel_ip (buildGraph recs cost) k).2 : ℝ) :=
      mul_le_mul_of_nonneg_right hek hOPT0
    have hzero : (((0:ℚ)) : ℝ) = 0 := by norm_num
    rw [hzero, sub_zero] at hcontr
    rw [solve_sentinel_greedy]
    calc ((1 : ℝ) - (Real.exp 1)⁻¹)
          * ((solve_sentinel_ip (buildGraph recs cost) k).2 : ℝ)
        = ((solve_sentinel_ip (buildGraph recs cost) k).2 : ℝ)
            - (Real.exp 1)⁻¹ * ((solve_sentinel_ip (buildGraph recs cost) k).2 : ℝ) := by
          ring
      _ ≤ ((solve_sentinel_ip (buildGraph recs cost) k).2 : ℝ)
            - (1 - 1/(k:ℝ))^k * ((solve_sentinel_ip (buildGraph recs cost) k).2 : ℝ) := by
          linarith [hco]
      _ ≤ ((greedyLoop (buildGraph recs cost) k ⟨[], [], 0⟩).score : ℝ) := by
          linarith [hcontr]

-- Witness for the amended C3 at a concrete nonnegative-talent instance
-- (single rating `1 → 2` of `+3`, budget 1).
unseal Rat.add Rat.mul Rat.inv Rat.sub in
theorem claim_C3_amended_greedy_ratio_witness :
    (∀ n ∈ (buildGraph [⟨1, 2, 3, 100⟩] (fun _ => 50)).nodes,
        0 ≤ (buildGraph [⟨1, 2, 3, 100⟩] (fun _ => 50)).talent n)
    ∧ ((1 : ℝ) - (Real.exp 1)⁻¹)
        * ((solve_sentinel_ip (buildGraph [⟨1, 2, 3, 100⟩] (fun _ => 50)) 1).2 : ℝ)
        ≤ ((solve_sentinel_greedy (buildGraph [⟨1, 2, 3, 100⟩] (fun _ => 50)) 1).2 : ℝ) :=
  ⟨by decide, claim_C3_amended_greedy_ratio [⟨1, 2, 3, 100⟩] (fun _ => 50) 1 (by decide)⟩

-- **C3 counterexample.** On `exG` with `K = 1` the greedy score is 1 while
-- the exact coverage is 10: the hub's positive and negative neighbors cancel
-- in the greedy gain, so greedy settles for the small isolated pair and
-- `1 < (1 - 1/e) · 10`.
unseal Rat.add Rat.mul Rat.inv Rat.sub in
theorem claim_C3_counterexample :
    ¬ (((1 : ℝ) - (Real.exp 1)⁻¹) * ((solve_sentinel_ip exG 1).2 : ℝ)
        ≤ ((solve_sentinel_greedy exG 1).2 : ℝ)) := by
  have hip : (solve_sentinel_ip exG 1).2 = 10 := by decide
  have hgr : (solve_sentinel_greedy exG 1).2 = 1 := by decide
  rw [hip, hgr]
  push_cast
  intro h
  have hepos : (0:ℝ) < Real.exp 1 := Real.exp_pos 1
  have he : (2.7182818283 : ℝ) < Real.exp 1 := Real.exp_one_gt_d9
  have h1 : (Real.exp 1)⁻¹ * Real.exp 1 = 1 := inv_mul_cancel₀ (ne_of_gt hepos)
  nlinarith [h, he, h1, inv_pos.2 hepos]

end VCNet
